import Mathlib

/-
Verification of the genre normalization engine (src/analysis/genre_normalize.py)
and the playlist filter composer (src/db/queries.py, build_playlist_query) of the
Real-PM/spindle repository.

Python strings are modelled as lists of characters (PyStr).  The behaviour of
the Python primitives used by the source (str.strip, str.lower, str.split,
re.sub with a whitespace pattern, unicodedata.normalize plus combining-mark
removal) is modelled exactly on the character repertoire exercised by the
pipeline and by the claims: all ASCII characters, the smart quotes replaced in
_normalize_unicode, the letter u-with-diaeresis appearing in the alias table,
the acute accent U+00B4 (whose NFKD decomposition is a space followed by a
combining acute), and the combining acute U+0301 itself.  Characters outside
this repertoire are treated as inert (identity behaviour), which matches
Python for every character actually mentioned in a definition or theorem in
this file.
-/

namespace Spindle

/-- PyStr models a Python str as its list of code points. -/
abbrev PyStr := List Char

/-- The apostrophe code point, U+0027. -/
def apos : Char := Char.ofNat 39

/-- Whitespace test matching Python str.isspace, str.split, str.strip and the
regular expression class backslash-s on the modelled repertoire: the ASCII
whitespace characters (including the information separators U+001C to U+001F)
and U+0085.  Sourced from the Python runtime semantics used throughout
src/analysis/genre_normalize.py. -/
def pyIsSpace (c : Char) : Bool :=
  c = ' ' || c = '\t' || c = '\n' || c = '\r' || c = '\x0b' || c = '\x0c' ||
  c = '\x1c' || c = '\x1d' || c = '\x1e' || c = '\x1f' || c = '\u0085'

/-- Python str.strip with no argument: remove leading and trailing whitespace. -/
def pyStrip (s : PyStr) : PyStr :=
  ((s.dropWhile pyIsSpace).reverse.dropWhile pyIsSpace).reverse

/-- First-match character lookup used to model the case mapping. -/
def lookupCh : List (Char × Char) → Char → Option Char
  | [], _ => none
  | (a, b) :: rest, c => if a = c then some b else lookupCh rest c

/-- The case mapping used by Python str.lower on the modelled repertoire. -/
def lowerTable : List (Char × Char) :=
  [('A', 'a'), ('B', 'b'), ('C', 'c'), ('D', 'd'), ('E', 'e'), ('F', 'f'),
   ('G', 'g'), ('H', 'h'), ('I', 'i'), ('J', 'j'), ('K', 'k'), ('L', 'l'),
   ('M', 'm'), ('N', 'n'), ('O', 'o'), ('P', 'p'), ('Q', 'q'), ('R', 'r'),
   ('S', 's'), ('T', 't'), ('U', 'u'), ('V', 'v'), ('W', 'w'), ('X', 'x'),
   ('Y', 'y'), ('Z', 'z'), ('\u00dc', '\u00fc')]

def pyLowerChar (c : Char) : Char := (lookupCh lowerTable c).getD c

/-- Python str.lower, character by character on the modelled repertoire. -/
def pyLower (s : PyStr) : PyStr := s.map pyLowerChar

/-- Replacement of smart quotes by straight ASCII quotes, modelling the four
str.replace calls at src/analysis/genre_normalize.py lines 240 and 241. -/
def replaceSmartChar (c : Char) : Char :=
  if c = '\u2018' || c = '\u2019' then apos
  else if c = '\u201c' || c = '\u201d' then '"'
  else c

/-- NFKD decomposition followed by removal of combining characters, per
character, modelling unicodedata.normalize NFKD plus the combining filter at
src/analysis/genre_normalize.py lines 242 to 244 on the modelled repertoire:
u-with-diaeresis decomposes to the base letter, the acute accent U+00B4
decomposes to a space plus a combining acute (the combining mark is removed),
a lone combining acute U+0301 is removed entirely, and every other modelled
character is inert. -/
def nfkdStripChar (c : Char) : List Char :=
  if c = '\u00fc' then ['u']
  else if c = '\u00dc' then ['U']
  else if c = '\u00b4' then [' ']
  else if c = '\u0301' then []
  else [c]

/-- Model of _normalize_unicode (src/analysis/genre_normalize.py lines 234 to
244): smart-quote replacement, then per-character NFKD decomposition with
combining marks removed. -/
def _normalize_unicode (s : PyStr) : PyStr :=
  ((s.map replaceSmartChar).map nfkdStripChar).flatten

/-- Model of re.sub applied with the one-or-more-whitespace pattern and a
single space replacement: every maximal run of whitespace becomes one space. -/
def collapseWs : PyStr → PyStr
  | [] => []
  | [c] => if pyIsSpace c then [' '] else [c]
  | c :: d :: rest =>
    if pyIsSpace c then
      (if pyIsSpace d then collapseWs (d :: rest) else ' ' :: collapseWs (d :: rest))
    else c :: collapseWs (d :: rest)

/-- Model of _normalize_separators (src/analysis/genre_normalize.py lines 247
to 256): collapse whitespace runs; the function does nothing else. -/
def _normalize_separators (s : PyStr) : PyStr := collapseWs s

/-- Helper for splitWs: accumulates the current token in reverse. -/
def splitWsAux : PyStr → PyStr → List PyStr
  | [], cur => if cur = [] then [] else [cur.reverse]
  | c :: rest, cur =>
    if pyIsSpace c then
      (if cur = [] then splitWsAux rest [] else cur.reverse :: splitWsAux rest [])
    else splitWsAux rest (c :: cur)

/-- Python str.split with no argument: split on whitespace runs, discarding
empty pieces. -/
def splitWs (s : PyStr) : List PyStr := splitWsAux s []

/-- Python " ".join on a list of tokens. -/
def joinToks : List PyStr → PyStr
  | [] => []
  | [t] => t
  | t :: ts => t ++ ' ' :: joinToks ts

/-- First-match association-list lookup, modelling a Python dict lookup (the
keys of ALIAS_MAP are pairwise distinct, so first match equals dict access). -/
def lookupAL (m : List (PyStr × PyStr)) (k : PyStr) : Option PyStr :=
  match m with
  | [] => none
  | (a, b) :: rest => if a = k then some b else lookupAL rest k

/-- The hyphen prefix set, src/analysis/genre_normalize.py lines 20 to 52. -/
def HYPHEN_PREFIXES : List PyStr :=
  ["acid".data, "afro".data, "alt".data, "anti".data, "art".data, "avant".data,
   "dark".data, "dream".data, "electro".data, "euro".data, "folk".data,
   "garage".data, "hard".data, "hyper".data, "indie".data, "jazz".data,
   "math".data, "neo".data, "noise".data, "nu".data, "post".data, "power".data,
   "pre".data, "proto".data, "psycho".data, "slow".data, "space".data,
   "speed".data, "stoner".data, "synth".data, "trip".data]

/-- The alias map, src/analysis/genre_normalize.py lines 57 to 231.  Keys with
an apostrophe are written via apos; the key with u-with-diaeresis is written
via its code point. -/
def ALIAS_MAP : List (PyStr × PyStr) :=
  [("rnb".data, "r&b".data),
   ("r and b".data, "r&b".data),
   ("r n b".data, "r&b".data),
   ("rhythm and blues".data, "r&b".data),
   ("rhythmandblues".data, "r&b".data),
   ("rock n roll".data, "rock and roll".data),
   ("rock & roll".data, "rock and roll".data),
   ("rock n".data ++ apos :: " roll".data, "rock and roll".data),
   ("rock".data ++ apos :: "n".data ++ apos :: "roll".data, "rock and roll".data),
   ("rocknroll".data, "rock and roll".data),
   ("rock roll".data, "rock and roll".data),
   ("hip hop".data, "hip-hop".data),
   ("hiphop".data, "hip-hop".data),
   ("hip-hop/rap".data, "hip-hop".data),
   ("hip hop/rap".data, "hip-hop".data),
   ("trip hop".data, "trip-hop".data),
   ("triphop".data, "trip-hop".data),
   ("lo fi".data, "lo-fi".data),
   ("lofi".data, "lo-fi".data),
   ("low fi".data, "lo-fi".data),
   ("low-fi".data, "lo-fi".data),
   ("electronica".data, "electronic".data),
   ("drum and bass".data, "drum & bass".data),
   ("drum n bass".data, "drum & bass".data),
   ("drum".data ++ apos :: "n".data ++ apos :: "bass".data, "drum & bass".data),
   ("drumnbass".data, "drum & bass".data),
   ("dnb".data, "drum & bass".data),
   ("d&b".data, "drum & bass".data),
   ("d and b".data, "drum & bass".data),
   ("shoe gaze".data, "shoegaze".data),
   ("shoe-gaze".data, "shoegaze".data),
   ("synth pop".data, "synth-pop".data),
   ("synthpop".data, "synth-pop".data),
   ("post punk".data, "post-punk".data),
   ("postpunk".data, "post-punk".data),
   ("post rock".data, "post-rock".data),
   ("postrock".data, "post-rock".data),
   ("newwave".data, "new wave".data),
   ("new-wave".data, "new wave".data),
   ("pop punk".data, "pop-punk".data),
   ("poppunk".data, "pop-punk".data),
   ("dream pop".data, "dream-pop".data),
   ("dreampop".data, "dream-pop".data),
   ("brit pop".data, "britpop".data),
   ("brit-pop".data, "britpop".data),
   ("math rock".data, "math-rock".data),
   ("mathrock".data, "math-rock".data),
   ("noise rock".data, "noise-rock".data),
   ("noiserock".data, "noise-rock".data),
   ("space rock".data, "space-rock".data),
   ("spacerock".data, "space-rock".data),
   ("stoner rock".data, "stoner-rock".data),
   ("stonerrock".data, "stoner-rock".data),
   ("nu metal".data, "nu-metal".data),
   ("numetal".data, "nu-metal".data),
   ("nu-metal".data, "nu-metal".data),
   ("n".data ++ '\u00fc' :: " metal".data, "nu-metal".data),
   ("n".data ++ '\u00fc' :: "-metal".data, "nu-metal".data),
   ("art rock".data, "art-rock".data),
   ("artrock".data, "art-rock".data),
   ("indie rock".data, "indie-rock".data),
   ("indierock".data, "indie-rock".data),
   ("indie pop".data, "indie-pop".data),
   ("indiepop".data, "indie-pop".data),
   ("alt country".data, "alt-country".data),
   ("altcountry".data, "alt-country".data),
   ("alternative country".data, "alt-country".data),
   ("power pop".data, "power-pop".data),
   ("powerpop".data, "power-pop".data),
   ("garage rock".data, "garage-rock".data),
   ("garagerock".data, "garage-rock".data),
   ("hard rock".data, "hard-rock".data),
   ("hardrock".data, "hard-rock".data),
   ("acid house".data, "acid-house".data),
   ("acidhouse".data, "acid-house".data),
   ("acid jazz".data, "acid-jazz".data),
   ("acidjazz".data, "acid-jazz".data),
   ("electro house".data, "electro-house".data),
   ("electrohouse".data, "electro-house".data),
   ("dark wave".data, "darkwave".data),
   ("dark-wave".data, "darkwave".data),
   ("cold wave".data, "coldwave".data),
   ("cold-wave".data, "coldwave".data),
   ("slow core".data, "slowcore".data),
   ("slow-core".data, "slowcore".data),
   ("speed metal".data, "speed-metal".data),
   ("speedmetal".data, "speed-metal".data),
   ("power metal".data, "power-metal".data),
   ("powermetal".data, "power-metal".data),
   ("thrash metal".data, "thrash-metal".data),
   ("thrashmetal".data, "thrash-metal".data),
   ("death metal".data, "death-metal".data),
   ("deathmetal".data, "death-metal".data),
   ("black metal".data, "black-metal".data),
   ("blackmetal".data, "black-metal".data),
   ("doom metal".data, "doom-metal".data),
   ("doommetal".data, "doom-metal".data),
   ("heavy metal".data, "heavy-metal".data),
   ("heavymetal".data, "heavy-metal".data),
   ("folk rock".data, "folk-rock".data),
   ("folkrock".data, "folk-rock".data),
   ("folk punk".data, "folk-punk".data),
   ("folkpunk".data, "folk-punk".data),
   ("psychedelic rock".data, "psychedelic-rock".data),
   ("psychedelicrock".data, "psychedelic-rock".data),
   ("progressive rock".data, "progressive-rock".data),
   ("progressiverock".data, "progressive-rock".data),
   ("prog rock".data, "progressive-rock".data),
   ("prog-rock".data, "progressive-rock".data),
   ("progrock".data, "progressive-rock".data),
   ("progressive metal".data, "progressive-metal".data),
   ("progressivemetal".data, "progressive-metal".data),
   ("prog metal".data, "progressive-metal".data),
   ("prog-metal".data, "progressive-metal".data),
   ("progmetal".data, "progressive-metal".data),
   ("00s".data, "2000s".data),
   ("10s".data, "2010s".data),
   ("20s".data, "2020s".data),
   ("the 80s".data, "80s".data),
   ("the 90s".data, "90s".data),
   ("the 70s".data, "70s".data),
   ("the 60s".data, "60s".data),
   ("uk".data, "british".data),
   ("singer songwriter".data, "singer-songwriter".data),
   ("singersongwriter".data, "singer-songwriter".data)]

/-- The token scan of _apply_hyphen_rules (src/analysis/genre_normalize.py
lines 269 to 280): a left-to-right greedy scan that joins a known prefix token
with the immediately following token using a hyphen and skips both. -/
def hyphenScan : List PyStr → List PyStr
  | [] => []
  | [w] => [w]
  | w :: next :: rest =>
    if w ∈ HYPHEN_PREFIXES then (w ++ '-' :: next) :: hyphenScan rest
    else w :: hyphenScan (next :: rest)

/-- Model of _apply_hyphen_rules (src/analysis/genre_normalize.py lines 259 to
282): split on whitespace; with fewer than two tokens the input is returned
unchanged, otherwise the scanned tokens are joined with single spaces. -/
def _apply_hyphen_rules (text : PyStr) : PyStr :=
  let words := splitWs text
  if words.length < 2 then text
  else joinToks (hyphenScan words)

/-- The cleaned text that normalize_genre checks against the alias map, namely
the input after strip, lower, unicode normalization and whitespace collapse
(steps 1 to 3 of src/analysis/genre_normalize.py lines 304 to 311). -/
def canonText (raw : PyStr) : PyStr :=
  _normalize_separators (_normalize_unicode (pyLower (pyStrip raw)))

/-- Model of normalize_genre (src/analysis/genre_normalize.py lines 285 to
324): empty check, strip and lower, unicode normalization, whitespace
collapse, alias pass, hyphenation, second alias pass. -/
def normalize_genre (raw : PyStr) : PyStr :=
  if pyStrip raw = [] then []
  else
    let text := canonText raw
    match lookupAL ALIAS_MAP text with
    | some v => v
    | none =>
      let text := _apply_hyphen_rules text
      match lookupAL ALIAS_MAP text with
      | some v => v
      | none => text

/-- Insertion into the grouping association list used by
find_duplicate_clusters: append the raw string to the entry of its canonical
key, or add a fresh entry at the end (Python dict insertion order). -/
def insertAppendRaw : List (PyStr × List PyStr) → PyStr → PyStr → List (PyStr × List PyStr)
  | [], c, raw => [(c, [raw])]
  | (k, vs) :: rest, c, raw =>
    if k = c then (k, vs ++ [raw]) :: rest
    else (k, vs) :: insertAppendRaw rest c raw

/-- One grouping step of find_duplicate_clusters: a raw string with an empty
canonical form is skipped, any other raw string is appended to the entry of
its canonical form. -/
def groupStep (acc : List (PyStr × List PyStr)) (raw : PyStr) : List (PyStr × List PyStr) :=
  if normalize_genre raw = [] then acc else insertAppendRaw acc (normalize_genre raw) raw

/-- The grouping loop of find_duplicate_clusters (src/analysis/genre_normalize.py
lines 359 to 366): group every raw string by its canonical form, skipping raws
whose canonical form is empty. -/
def groupByCanonical (raws : List PyStr) : List (PyStr × List PyStr) :=
  raws.foldl groupStep []

/-- First-match lookup in the cluster association list, modelling access to
the Python dict returned by find_duplicate_clusters. -/
def lookupCl : List (PyStr × List PyStr) → PyStr → Option (List PyStr)
  | [], _ => none
  | (k, vs) :: rest, c => if k = c then some vs else lookupCl rest c

/-- Combining an already accumulated optional member list with further
members; used to state the grouping invariant of find_duplicate_clusters. -/
def combineOpt (o : Option (List PyStr)) (l : List PyStr) : Option (List PyStr) :=
  match o with
  | none => if l = [] then none else some l
  | some vs => some (vs ++ l)

/-- Python string comparison: lexicographic on code points. -/
def pyStrLt : PyStr → PyStr → Bool
  | [], [] => false
  | [], _ :: _ => true
  | _ :: _, [] => false
  | a :: as, b :: bs => if a < b then true else if a = b then pyStrLt as bs else false

/-- Insertion step of an insertion sort on canonical keys. -/
def insertByKey (x : PyStr × List PyStr) : List (PyStr × List PyStr) → List (PyStr × List PyStr)
  | [] => [x]
  | y :: rest => if pyStrLt x.1 y.1 then x :: y :: rest else y :: insertByKey x rest

/-- Sorting of the grouped entries by canonical key, modelling the Python
sorted call on dict items (keys are pairwise distinct, so ordering by key
determines the result completely). -/
def sortByKey (l : List (PyStr × List PyStr)) : List (PyStr × List PyStr) :=
  l.foldr insertByKey []

/-- Model of find_duplicate_clusters (src/analysis/genre_normalize.py lines
345 to 373): group by canonical form, sort by canonical key, and keep only
clusters with at least two members.  The Python dict result is modelled as an
association list in its (sorted) iteration order. -/
def find_duplicate_clusters (raws : List PyStr) : List (PyStr × List PyStr) :=
  (sortByKey (groupByCanonical raws)).filter (fun p => 2 ≤ p.2.length)

/-
Playlist filter composer, src/db/queries.py lines 494 to 586.

The external lookup collaborator (get_tracks_by_title and friends) is
abstracted as a record of functions from the filter parameters to lists of
plex ids; build_playlist_query converts each list to a set.  The call to
random.shuffle is abstracted as a caller-supplied function on lists; theorems
that depend on the shuffle assume it permutes its input.  Python sets are
modelled as deduplicated lists: membership gives the set semantics, and the
list order stands in for the unspecified iteration order of a Python set.
-/

/-- The arguments of build_playlist_query (src/db/queries.py lines 494 to 503). -/
structure PlaylistArgs where
  title : Option PyStr
  genres : Option (List PyStr)
  genre_groups : Option (List PyStr)
  bpm_range : Option (Int × Int)
  artists : Option (List PyStr)
  similar_to : Option PyStr
  limit : Option Int
  shuffle : Bool

/-- The external lookup collaborator of build_playlist_query: one function per
filter dimension, returning lists of plex ids. -/
structure Lookups where
  titleIds : PyStr → List Int
  genresIds : List PyStr → List Int
  groupsIds : List PyStr → List Int
  bpmIds : Int → Int → List Int
  artistsIds : List PyStr → List Int
  similarIds : PyStr → List Int

/-- Python truthiness of an optional string: present and nonempty. -/
def optStrTruthy : Option PyStr → Bool
  | none => false
  | some s => !s.isEmpty

/-- Python truthiness of an optional list: present and nonempty. -/
def optListTruthy : Option (List PyStr) → Bool
  | none => false
  | some l => !l.isEmpty

/-- One conjunction step of the composition (the pattern result_set = X if
result_set is None else result_set and X, guarded by an if, in
src/db/queries.py lines 541 to 570). -/
def andStep (rs : Option (List Int)) (cond : Bool) (s : List Int) : Option (List Int) :=
  if cond then
    some (match rs with
          | none => s
          | some r => r ∩ s)
  else rs

/-- One union step building a pool (the pattern pool = X if pool is None else
pool or X, guarded by an if, in src/db/queries.py lines 546 to 552 and 563
to 569). -/
def orStep (pool : Option (List Int)) (cond : Bool) (s : List Int) : Option (List Int) :=
  if cond then
    some (match pool with
          | none => s
          | some p => p ∪ s)
  else pool

/-- Folding a finished pool into the accumulator (the pattern if pool is not
None: result_set = pool if result_set is None else result_set and pool, in
src/db/queries.py lines 553 to 554 and 570 to 571). -/
def poolFold (rs : Option (List Int)) (pool : Option (List Int)) : Option (List Int) :=
  match pool with
  | none => rs
  | some p =>
    some (match rs with
          | none => p
          | some r => r ∩ p)

/-- The bpm lookup set for the present range (src/db/queries.py lines 557 to
559); the lookup is only consulted when the range is present. -/
def bpmSet (lk : Lookups) (a : PlaylistArgs) : List Int :=
  match a.bpm_range with
  | none => []
  | some (lo, hi) => (lk.bpmIds lo hi).dedup

/-- The accumulator of build_playlist_query after all four dimensions
(src/db/queries.py lines 538 to 571): None when no dimension was requested. -/
def playlistResultSet (lk : Lookups) (a : PlaylistArgs) : Option (List Int) :=
  let rs := andStep none (optStrTruthy a.title) ((lk.titleIds (a.title.getD [])).dedup)
  let gp := orStep
      (orStep none (optListTruthy a.genres) ((lk.genresIds (a.genres.getD [])).dedup))
      (optListTruthy a.genre_groups) ((lk.groupsIds (a.genre_groups.getD [])).dedup)
  let rs := poolFold rs gp
  let rs := andStep rs a.bpm_range.isSome (bpmSet lk a)
  let ap := orStep
      (orStep none (optListTruthy a.artists) ((lk.artistsIds (a.artists.getD [])).dedup))
      (optStrTruthy a.similar_to) ((lk.similarIds (a.similar_to.getD [])).dedup)
  poolFold rs ap

/-- Python list slicing l[:n] for an arbitrary integer n: a nonnegative n
takes the first n elements, a negative n drops the last -n elements. -/
def pySliceTo (l : List Int) (n : Int) : List Int :=
  if 0 ≤ n then l.take n.toNat else l.take ((l.length : Int) + n).toNat

/-- The result list of build_playlist_query just before the limit is applied
(src/db/queries.py lines 573 to 581): the set converted to a list, shuffled
when shuffle is true. -/
def playlistPrelimit (lk : Lookups) (shuffler : List Int → List Int) (a : PlaylistArgs) : List Int :=
  match playlistResultSet lk a with
  | none => []
  | some rs => if a.shuffle then shuffler rs else rs

/-- Model of build_playlist_query (src/db/queries.py lines 494 to 586).  The
guard if limit: means a limit of None or 0 leaves the list untouched. -/
def build_playlist_query (lk : Lookups) (shuffler : List Int → List Int) (a : PlaylistArgs) : List Int :=
  let l := playlistPrelimit lk shuffler a
  match a.limit with
  | none => l
  | some n => if n = 0 then l else pySliceTo l n

/-- The title dimension is requested when the title argument is truthy. -/
def titleRequested (a : PlaylistArgs) : Bool := optStrTruthy a.title

/-- The genre dimension is requested when either genre list argument is truthy. -/
def genreRequested (a : PlaylistArgs) : Bool :=
  optListTruthy a.genres || optListTruthy a.genre_groups

/-- The bpm dimension is requested when the range is present. -/
def bpmRequested (a : PlaylistArgs) : Bool := a.bpm_range.isSome

/-- The artist dimension is requested when either artist argument is truthy. -/
def artistRequested (a : PlaylistArgs) : Bool :=
  optListTruthy a.artists || optStrTruthy a.similar_to

/-- Some filter dimension is requested. -/
def anyRequested (a : PlaylistArgs) : Bool :=
  titleRequested a || genreRequested a || bpmRequested a || artistRequested a

/-- The title lookup set (spec side of the characterization in claim C3). -/
def titleSet (lk : Lookups) (a : PlaylistArgs) : List Int :=
  (lk.titleIds (a.title.getD [])).dedup

/-- The genre pool of the specification: the union of the genres lookup and
the genre-groups lookup, each contributing only when requested. -/
def genrePool (lk : Lookups) (a : PlaylistArgs) : List Int :=
  (if optListTruthy a.genres then (lk.genresIds (a.genres.getD [])).dedup else []) ∪
  (if optListTruthy a.genre_groups then (lk.groupsIds (a.genre_groups.getD [])).dedup else [])

/-- The artist pool of the specification: the union of the artists lookup and
the similar-artists lookup, each contributing only when requested. -/
def artistPool (lk : Lookups) (a : PlaylistArgs) : List Int :=
  (if optListTruthy a.artists then (lk.artistsIds (a.artists.getD [])).dedup else []) ∪
  (if optStrTruthy a.similar_to then (lk.similarIds (a.similar_to.getD [])).dedup else [])

/-- The set denoted by the optional accumulator: the empty set when no
dimension was requested. -/
def setOfResult (o : Option (List Int)) : List Int :=
  match o with
  | none => []
  | some s => s

/-- Replacing the bpm range of an argument record. -/
def withBpm (a : PlaylistArgs) (b : Option (Int × Int)) : PlaylistArgs :=
  { a with bpm_range := b }

/-- A string starts with a non-whitespace character (or is empty). -/
def startsNonWs : PyStr → Bool
  | [] => true
  | c :: _ => !pyIsSpace c

/-- A string ends with a non-whitespace character (or is empty). -/
def endsNonWs : PyStr → Bool
  | [] => true
  | [c] => !pyIsSpace c
  | _ :: c :: rest => endsNonWs (c :: rest)

/-- A good token is nonempty and whitespace free; str.split only produces
good tokens. -/
def goodTok (t : PyStr) : Prop := t ≠ [] ∧ ∀ c ∈ t, pyIsSpace c = false

/-- A character is stable when the lowercasing, smart-quote and unicode steps
of the pipeline leave it alone. -/
def stableChar (c : Char) : Prop :=
  pyLowerChar c = c ∧ replaceSmartChar c = c ∧ nfkdStripChar c = [c]

theorem lookupCh_mem : ∀ (t : List (Char × Char)) (c d : Char),
    lookupCh t c = some d → (c, d) ∈ t := by
  intro t
  induction t with
  | nil => intro c d h; simp [lookupCh] at h
  | cons p rest ih =>
    intro c d h
    obtain ⟨a, b⟩ := p
    by_cases hac : a = c
    · subst hac
      simp [lookupCh] at h
      simp [h]
    · rw [show lookupCh ((a, b) :: rest) c = lookupCh rest c by simp [lookupCh, hac]] at h
      exact List.mem_cons_of_mem _ (ih c d h)

theorem pyLowerChar_cases (c : Char) :
    pyLowerChar c = c ∨ pyLowerChar c ∈ "abcdefghijklmnopqrstuvwxyz".data ++ ['\u00fc'] := by
  unfold pyLowerChar
  rcases h : lookupCh lowerTable c with _ | d
  · left; rfl
  · right
    have hm := lookupCh_mem lowerTable c d h
    have : ∀ p ∈ lowerTable, p.2 ∈ "abcdefghijklmnopqrstuvwxyz".data ++ ['\u00fc'] := by decide
    exact this (c, d) hm

theorem lower_targets_fixed :
    ∀ d ∈ "abcdefghijklmnopqrstuvwxyz".data ++ ['\u00fc'], pyLowerChar d = d := by decide

theorem lower_targets_not_ws :
    ∀ d ∈ "abcdefghijklmnopqrstuvwxyz".data ++ ['\u00fc'], pyIsSpace d = false := by decide

theorem pyLowerChar_idem (c : Char) : pyLowerChar (pyLowerChar c) = pyLowerChar c := by
  rcases pyLowerChar_cases c with h | h
  · rw [h, h]
  · exact lower_targets_fixed _ h

theorem pyLowerChar_not_ws (c : Char) (h : pyIsSpace c = false) :
    pyIsSpace (pyLowerChar c) = false := by
  rcases pyLowerChar_cases c with h2 | h2
  · rw [h2]; exact h
  · exact lower_targets_not_ws _ h2

theorem pyLowerChar_ascii (c : Char) (h : c.toNat < 128) : (pyLowerChar c).toNat < 128 := by
  unfold pyLowerChar
  rcases hl : lookupCh lowerTable c with _ | d
  · exact h
  · have hm := lookupCh_mem lowerTable c d hl
    have hs : ∀ p ∈ lowerTable, p.1.toNat < 128 → p.2.toNat < 128 := by decide
    exact hs (c, d) hm h

theorem replaceSmartChar_ascii (c : Char) (h : c.toNat < 128) : replaceSmartChar c = c := by
  unfold replaceSmartChar
  split_ifs with h1 h2
  · simp only [Bool.or_eq_true, decide_eq_true_eq] at h1
    rcases h1 with h1 | h1 <;> subst h1 <;> exact absurd h (by decide)
  · simp only [Bool.or_eq_true, decide_eq_true_eq] at h2
    rcases h2 with h2 | h2 <;> subst h2 <;> exact absurd h (by decide)
  · rfl

theorem nfkdStripChar_ascii (c : Char) (h : c.toNat < 128) : nfkdStripChar c = [c] := by
  unfold nfkdStripChar
  split_ifs with h1 h2 h3 h4 <;> subst_vars <;> first | rfl | exact absurd h (by decide)

theorem stableChar_of_ascii_lowered (c : Char) (h : c.toNat < 128) :
    stableChar (pyLowerChar c) ∧ (pyLowerChar c).toNat < 128 := by
  have ha := pyLowerChar_ascii c h
  exact ⟨⟨pyLowerChar_idem c, replaceSmartChar_ascii _ ha, nfkdStripChar_ascii _ ha⟩, ha⟩

theorem stableChar_space : stableChar ' ' := by
  refine ⟨by decide, by decide, by decide⟩

theorem stableChar_hyphen : stableChar '-' := by
  refine ⟨by decide, by decide, by decide⟩

theorem mem_takeWhile_ws {p : Char → Bool} :
    ∀ (u : PyStr), ∀ c ∈ u.takeWhile p, p c = true := by
  intro u
  induction u with
  | nil => intro c hc; simp [List.takeWhile] at hc
  | cons d u ih =>
    intro c hc
    by_cases hd : p d
    · rw [List.takeWhile_cons_of_pos hd, List.mem_cons] at hc
      rcases hc with hc | hc
      · exact hc ▸ hd
      · exact ih c hc
    · rw [List.takeWhile_cons_of_neg hd] at hc
      simp at hc

theorem startsNonWs_dropWhile (u : PyStr) :
    startsNonWs (u.dropWhile pyIsSpace) = true := by
  induction u with
  | nil => rfl
  | cons c u ih =>
    by_cases hc : pyIsSpace c
    · rw [List.dropWhile_cons_of_pos hc]; exact ih
    · rw [List.dropWhile_cons_of_neg hc]
      simp [startsNonWs, hc]

theorem endsNonWs_cons (c : Char) (rest : PyStr) (h : rest ≠ []) :
    endsNonWs (c :: rest) = endsNonWs rest := by
  cases rest with
  | nil => exact absurd rfl h
  | cons d rest => rfl

theorem endsNonWs_eq_startsNonWs_reverse (u : PyStr) :
    endsNonWs u = startsNonWs u.reverse := by
  induction u with
  | nil => rfl
  | cons c u ih =>
    cases u with
    | nil => simp [endsNonWs, startsNonWs]
    | cons d u =>
      rw [endsNonWs_cons c (d :: u) (by simp), ih]
      have h : (c :: d :: u).reverse = (d :: u).reverse ++ [c] := by simp
      rw [h]
      rcases hr : (d :: u).reverse with _ | ⟨e, v⟩
      · exact absurd hr (by simp)
      · simp [startsNonWs]

theorem endsNonWs_append (A B : PyStr) (h : B ≠ []) :
    endsNonWs (A ++ B) = endsNonWs B := by
  rw [endsNonWs_eq_startsNonWs_reverse, endsNonWs_eq_startsNonWs_reverse,
    List.reverse_append]
  rcases hb : B.reverse with _ | ⟨c, v⟩
  · exact absurd (by simpa using congrArg List.reverse hb) h
  · simp [startsNonWs]

theorem startsNonWs_stripRight (u : PyStr) (h : startsNonWs u = true) :
    startsNonWs ((u.reverse.dropWhile pyIsSpace).reverse) = true := by
  have hsplit : u = ((u.reverse.dropWhile pyIsSpace).reverse) ++
      ((u.reverse.takeWhile pyIsSpace).reverse) := by
    have h2 := List.takeWhile_append_dropWhile pyIsSpace u.reverse
    have h3 := congrArg List.reverse h2
    rw [List.reverse_append] at h3
    calc u = u.reverse.reverse := by rw [List.reverse_reverse]
    _ = _ := h3.symm
  rcases hA : (u.reverse.dropWhile pyIsSpace).reverse with _ | ⟨a, w⟩
  · simp [startsNonWs]
  · rw [hA] at hsplit
    rw [hsplit] at h
    simpa [startsNonWs] using h

theorem pyStrip_startsNonWs (s : PyStr) : startsNonWs (pyStrip s) = true :=
  startsNonWs_stripRight (s.dropWhile pyIsSpace) (startsNonWs_dropWhile s)

theorem pyStrip_endsNonWs (s : PyStr) : endsNonWs (pyStrip s) = true := by
  unfold pyStrip
  rw [endsNonWs_eq_startsNonWs_reverse, List.reverse_reverse]
  exact startsNonWs_dropWhile _

theorem pyStrip_fix (u : PyStr) (h1 : startsNonWs u = true) (h2 : endsNonWs u = true) :
    pyStrip u = u := by
  unfold pyStrip
  have hd1 : u.dropWhile pyIsSpace = u := by
    cases u with
    | nil => rfl
    | cons c v =>
      simp only [startsNonWs, Bool.not_eq_true'] at h1
      rw [List.dropWhile_cons_of_neg (by simp [h1])]
  rw [hd1]
  have hd2 : u.reverse.dropWhile pyIsSpace = u.reverse := by
    rw [endsNonWs_eq_startsNonWs_reverse] at h2
    rcases hr : u.reverse with _ | ⟨c, v⟩
    · rfl
    · rw [hr] at h2
      simp only [startsNonWs, Bool.not_eq_true'] at h2
      rw [List.dropWhile_cons_of_neg (by simp [h2])]
  rw [hd2, List.reverse_reverse]

theorem collapseWs_cons_ws : ∀ (c : Char) (rest : PyStr), pyIsSpace c = true →
    collapseWs (c :: rest) = ' ' :: collapseWs (rest.dropWhile pyIsSpace)
  | c, [], hc => by simp [collapseWs, hc]
  | c, d :: rest, hc => by
    by_cases hd : pyIsSpace d
    · have ih := collapseWs_cons_ws d rest hd
      rw [show collapseWs (c :: d :: rest) = collapseWs (d :: rest) from by
        simp [collapseWs, hc, hd]]
      rw [ih, List.dropWhile_cons_of_pos hd]
    · rw [show collapseWs (c :: d :: rest) = ' ' :: collapseWs (d :: rest) from by
        simp [collapseWs, hc, hd]]
      rw [List.dropWhile_cons_of_neg hd]

theorem collapseWs_cons_not_ws (c : Char) (rest : PyStr) (hc : pyIsSpace c = false) :
    collapseWs (c :: rest) = c :: collapseWs rest := by
  cases rest with
  | nil => simp [collapseWs, hc]
  | cons d rest => simp [collapseWs, hc]

theorem splitWs_cons_ws (c : Char) (rest : PyStr) (hc : pyIsSpace c = true) :
    splitWs (c :: rest) = splitWs rest := by
  simp [splitWs, splitWsAux, hc]

theorem splitWsAux_ne_nil : ∀ (rest cur : PyStr), cur ≠ [] →
    splitWsAux rest cur =
    (cur.reverse ++ rest.takeWhile (fun x => !pyIsSpace x)) ::
      splitWs (rest.dropWhile (fun x => !pyIsSpace x))
  | [], cur, h => by simp [splitWsAux, h, splitWs]
  | d :: rest, cur, h => by
    by_cases hd : pyIsSpace d
    · rw [show splitWsAux (d :: rest) cur = cur.reverse :: splitWsAux rest [] from by
        simp [splitWsAux, hd, h]]
      rw [List.takeWhile_cons_of_neg (by simp [hd]), List.dropWhile_cons_of_neg (by simp [hd])]
      rw [splitWs_cons_ws d rest hd]
      simp [splitWs]
    · rw [show splitWsAux (d :: rest) cur = splitWsAux rest (d :: cur) from by
        simp [splitWsAux, hd]]
      rw [splitWsAux_ne_nil rest (d :: cur) (by simp)]
      rw [List.takeWhile_cons_of_pos (by simp [hd]), List.dropWhile_cons_of_pos (by simp [hd])]
      simp

theorem splitWs_cons_not_ws (c : Char) (rest : PyStr) (hc : pyIsSpace c = false) :
    splitWs (c :: rest) =
    (c :: rest.takeWhile (fun x => !pyIsSpace x)) ::
      splitWs (rest.dropWhile (fun x => !pyIsSpace x)) := by
  rw [show splitWs (c :: rest) = splitWsAux rest [c] from by simp [splitWs, splitWsAux, hc]]
  rw [splitWsAux_ne_nil rest [c] (by simp)]
  simp

theorem splitWs_dropWhile (u : PyStr) : splitWs (u.dropWhile pyIsSpace) = splitWs u := by
  induction u with
  | nil => rfl
  | cons c u ih =>
    by_cases hc : pyIsSpace c
    · rw [List.dropWhile_cons_of_pos hc, ih, splitWs_cons_ws c u hc]
    · rw [List.dropWhile_cons_of_neg hc]

theorem splitWsAux_good : ∀ (s cur : PyStr), (∀ c ∈ cur, pyIsSpace c = false) →
    ∀ t ∈ splitWsAux s cur, goodTok t
  | [], cur, hcur => by
    intro t ht
    by_cases h : cur = []
    · simp [splitWsAux, h] at ht
    · simp only [splitWsAux, if_neg h, List.mem_singleton] at ht
      subst ht
      refine ⟨by simpa using h, ?_⟩
      intro x hx
      exact hcur x (by simpa using hx)
  | c :: rest, cur, hcur => by
    intro t ht
    by_cases hc : pyIsSpace c
    · by_cases h : cur = []
      · rw [show splitWsAux (c :: rest) cur = splitWsAux rest [] from by
          simp [splitWsAux, hc, h]] at ht
        exact splitWsAux_good rest [] (by simp) t ht
      · rw [show splitWsAux (c :: rest) cur = cur.reverse :: splitWsAux rest [] from by
          simp [splitWsAux, hc, h]] at ht
        rcases List.mem_cons.mp ht with h1 | h1
        · subst h1
          refine ⟨by simpa using h, ?_⟩
          intro x hx
          exact hcur x (by simpa using hx)
        · exact splitWsAux_good rest [] (by simp) t h1
    · rw [show splitWsAux (c :: rest) cur = splitWsAux rest (c :: cur) from by
        simp [splitWsAux, hc]] at ht
      refine splitWsAux_good rest (c :: cur) ?_ t ht
      intro x hx
      rcases List.mem_cons.mp hx with h1 | h1
      · subst h1; simpa using hc
      · exact hcur x h1

theorem splitWs_good (s : PyStr) : ∀ t ∈ splitWs s, goodTok t :=
  splitWsAux_good s [] (by simp)

theorem splitWs_eq_nil_iff (u : PyStr) : splitWs u = [] ↔ ∀ c ∈ u, pyIsSpace c = true := by
  induction u with
  | nil => simp [splitWs, splitWsAux]
  | cons c u ih =>
    by_cases hc : pyIsSpace c
    · rw [splitWs_cons_ws c u hc]
      simp [hc, ih]
    · replace hc : pyIsSpace c = false := by simpa using hc
      rw [splitWs_cons_not_ws c u hc]
      simp [hc]

theorem joinToks_cons (t : PyStr) (ts : List PyStr) (h : ts ≠ []) :
    joinToks (t :: ts) = t ++ ' ' :: joinToks ts := by
  cases ts with
  | nil => exact absurd rfl h
  | cons u ts => rfl

theorem joinToks_cons_char (c : Char) (t : PyStr) (ts : List PyStr) :
    joinToks ((c :: t) :: ts) = c :: joinToks (t :: ts) := by
  cases ts with
  | nil => rfl
  | cons u ts => rfl

theorem joinToks_ne_nil (u : PyStr) (ts : List PyStr) (hu : u ≠ []) :
    joinToks (u :: ts) ≠ [] := by
  cases ts with
  | nil => exact hu
  | cons v ts => simp [joinToks]

theorem splitWsAux_token : ∀ (tok s cur : PyStr), (∀ c ∈ tok, pyIsSpace c = false) →
    splitWsAux (tok ++ s) cur = splitWsAux s (tok.reverse ++ cur)
  | [], s, cur, _ => by simp
  | c :: tok, s, cur, h => by
    have hc : pyIsSpace c = false := h c (by simp)
    rw [List.cons_append]
    rw [show splitWsAux (c :: (tok ++ s)) cur = splitWsAux (tok ++ s) (c :: cur) from by
      simp [splitWsAux, hc]]
    rw [splitWsAux_token tok s (c :: cur) (fun x hx => h x (by simp [hx]))]
    simp

theorem splitWs_joinToks : ∀ (ts : List PyStr), (∀ t ∈ ts, goodTok t) →
    splitWs (joinToks ts) = ts
  | [], _ => rfl
  | [t], h => by
    have ht := h t (by simp)
    show splitWsAux t [] = [t]
    have h2 := splitWsAux_token t [] [] ht.2
    rw [List.append_nil] at h2
    rw [h2]
    have hne : t.reverse ≠ [] := by simpa using ht.1
    simp [splitWsAux, hne]
  | t :: u :: ts, h => by
    have ht := h t (by simp)
    have hsp : pyIsSpace ' ' = true := by decide
    show splitWsAux (t ++ ' ' :: joinToks (u :: ts)) [] = t :: u :: ts
    rw [splitWsAux_token t (' ' :: joinToks (u :: ts)) [] ht.2]
    rw [List.append_nil]
    rw [show splitWsAux (' ' :: joinToks (u :: ts)) t.reverse =
        t.reverse.reverse :: splitWsAux (joinToks (u :: ts)) [] from by
      simp [splitWsAux, hsp, (show t.reverse ≠ [] from by simpa using ht.1)]]
    rw [List.reverse_reverse]
    have hrec := splitWs_joinToks (u :: ts) (fun x hx => h x (List.mem_cons_of_mem _ hx))
    rw [show splitWsAux (joinToks (u :: ts)) [] = splitWs (joinToks (u :: ts)) from rfl, hrec]

theorem endsNonWs_all_not_ws : ∀ (u : PyStr), (∀ c ∈ u, pyIsSpace c = false) →
    endsNonWs u = true
  | [], _ => rfl
  | [c], h => by simp [endsNonWs, h c (by simp)]
  | c :: d :: rest, h => by
    rw [endsNonWs_cons c (d :: rest) (by simp)]
    exact endsNonWs_all_not_ws (d :: rest) (fun x hx => h x (List.mem_cons_of_mem _ hx))

theorem startsNonWs_joinToks (ts : List PyStr) (h : ∀ t ∈ ts, goodTok t) :
    startsNonWs (joinToks ts) = true := by
  cases ts with
  | nil => rfl
  | cons t ts =>
    have ht := h t (by simp)
    rcases hteq : t with _ | ⟨c, t2⟩
    · exact absurd (hteq ▸ rfl) ht.1
    · have hc := ht.2 c (by rw [hteq]; simp)
      cases ts with
      | nil => simp [joinToks, startsNonWs, hc]
      | cons u ts => simp [joinToks, startsNonWs, hc]

theorem endsNonWs_joinToks : ∀ (ts : List PyStr), (∀ t ∈ ts, goodTok t) →
    endsNonWs (joinToks ts) = true
  | [], _ => rfl
  | [t], h => endsNonWs_all_not_ws t (h t (by simp)).2
  | t :: u :: ts, h => by
    have h2 := endsNonWs_joinToks (u :: ts) (fun x hx => h x (List.mem_cons_of_mem _ hx))
    have hju : joinToks (u :: ts) ≠ [] := joinToks_ne_nil u ts (h u (by simp)).1
    show endsNonWs (t ++ ' ' :: joinToks (u :: ts)) = true
    rw [endsNonWs_append t (' ' :: joinToks (u :: ts)) (by simp)]
    rw [endsNonWs_cons ' ' (joinToks (u :: ts)) hju]
    exact h2

theorem not_all_ws_of_endsNonWs : ∀ (u : PyStr), u ≠ [] → endsNonWs u = true →
    ¬(∀ c ∈ u, pyIsSpace c = true)
  | [], h, _ => absurd rfl h
  | [c], _, he => by
    intro hall
    simp only [endsNonWs, Bool.not_eq_true'] at he
    exact absurd (hall c (by simp)) (by simp [he])
  | c :: d :: rest, _, he => by
    intro hall
    rw [endsNonWs_cons c (d :: rest) (by simp)] at he
    exact not_all_ws_of_endsNonWs (d :: rest) (by simp) he
      (fun x hx => hall x (List.mem_cons_of_mem _ hx))

theorem dropWhile_length_le (p : Char → Bool) : ∀ (l : PyStr),
    (l.dropWhile p).length ≤ l.length
  | [] => Nat.le_refl 0
  | c :: l => by
    by_cases hc : p c
    · rw [List.dropWhile_cons_of_pos hc]
      exact Nat.le_succ_of_le (dropWhile_length_le p l)
    · rw [List.dropWhile_cons_of_neg hc]

theorem collapse_join : ∀ (v : PyStr), endsNonWs v = true →
    collapseWs v = (if startsNonWs v then ([] : PyStr) else [' ']) ++ joinToks (splitWs v)
  | [], _ => by simp [collapseWs, splitWs, splitWsAux, joinToks, startsNonWs]
  | c :: rest, hv => by
    by_cases hc : pyIsSpace c
    · have hrest_ne : rest ≠ [] := by
        intro h
        subst h
        simp [endsNonWs, hc] at hv
      have hrest : endsNonWs rest = true := by
        rw [endsNonWs_cons c rest hrest_ne] at hv
        exact hv
      have hre : endsNonWs (rest.dropWhile pyIsSpace) = true := by
        have h2 := List.takeWhile_append_dropWhile pyIsSpace rest
        by_cases hrnil : rest.dropWhile pyIsSpace = []
        · rw [hrnil]; rfl
        · rw [← h2, endsNonWs_append _ _ hrnil] at hrest
          exact hrest
      have ih := collapse_join (rest.dropWhile pyIsSpace) hre
      rw [collapseWs_cons_ws c rest hc, ih]
      have hs : startsNonWs (rest.dropWhile pyIsSpace) = true := startsNonWs_dropWhile rest
      have h3 : startsNonWs (c :: rest) = false := by simp [startsNonWs, hc]
      rw [hs, h3]
      rw [splitWs_cons_ws c rest hc, ← splitWs_dropWhile rest]
      simp
    · replace hc : pyIsSpace c = false := by simpa using hc
      cases rest with
      | nil => simp [collapseWs, hc, splitWs, splitWsAux, joinToks, startsNonWs]
      | cons d rest2 =>
        have hrest : endsNonWs (d :: rest2) = true := by
          rw [endsNonWs_cons c (d :: rest2) (by simp)] at hv
          exact hv
        have ih := collapse_join (d :: rest2) hrest
        rw [collapseWs_cons_not_ws c (d :: rest2) hc, ih]
        have h3 : startsNonWs (c :: d :: rest2) = true := by simp [startsNonWs, hc]
        rw [h3]
        by_cases hd : pyIsSpace d
        · have h4 : startsNonWs (d :: rest2) = false := by simp [startsNonWs, hd]
          rw [h4]
          rw [splitWs_cons_not_ws c (d :: rest2) hc]
          rw [List.takeWhile_cons_of_neg (by simp [hd]), List.dropWhile_cons_of_neg (by simp [hd])]
          have h5 : splitWs (d :: rest2) ≠ [] := by
            rw [Ne, splitWs_eq_nil_iff]
            exact not_all_ws_of_endsNonWs (d :: rest2) (by simp) hrest
          rw [joinToks_cons [c] (splitWs (d :: rest2)) h5]
          simp
        · replace hd : pyIsSpace d = false := by simpa using hd
          have h4 : startsNonWs (d :: rest2) = true := by simp [startsNonWs, hd]
          rw [h4]
          rw [splitWs_cons_not_ws c (d :: rest2) hc]
          rw [List.takeWhile_cons_of_pos (by simp [hd]), List.dropWhile_cons_of_pos (by simp [hd])]
          rw [splitWs_cons_not_ws d rest2 hd]
          rw [joinToks_cons_char c (d :: rest2.takeWhile fun x => !pyIsSpace x)
            (splitWs (rest2.dropWhile fun x => !pyIsSpace x))]
          simp
termination_by v _ => v.length
decreasing_by
  · simp only [List.length_cons]
    have := dropWhile_length_le pyIsSpace rest
    omega
  · have h5 : rest.length = rest2.length + 1 := by simp_all
    simp only [List.length_cons]
    omega

theorem dropWhile_chars (p : Char → Bool) : ∀ (l : PyStr), ∀ c ∈ l.dropWhile p, c ∈ l
  | [] => by intro c hc; simp at hc
  | d :: l => by
    intro c hc
    by_cases hd : p d
    · rw [List.dropWhile_cons_of_pos hd] at hc
      exact List.mem_cons_of_mem _ (dropWhile_chars p l c hc)
    · rw [List.dropWhile_cons_of_neg hd] at hc
      exact hc

theorem pyStrip_chars (s : PyStr) : ∀ c ∈ pyStrip s, c ∈ s := by
  intro c hc
  unfold pyStrip at hc
  rw [List.mem_reverse] at hc
  have h1 := dropWhile_chars pyIsSpace (s.dropWhile pyIsSpace).reverse c hc
  rw [List.mem_reverse] at h1
  exact dropWhile_chars pyIsSpace s c h1

theorem collapseWs_chars : ∀ (u : PyStr), ∀ c ∈ collapseWs u, c ∈ u ∨ c = ' '
  | [] => by intro c hc; simp [collapseWs] at hc
  | [d] => by
    intro c hc
    by_cases hd : pyIsSpace d
    · simp only [collapseWs, if_pos hd, List.mem_singleton] at hc
      right; exact hc
    · simp only [collapseWs, if_neg hd, List.mem_singleton] at hc
      left; simp [hc]
  | d :: e :: rest => by
    intro c hc
    by_cases hd : pyIsSpace d
    · by_cases he : pyIsSpace e
      · rw [show collapseWs (d :: e :: rest) = collapseWs (e :: rest) from by
          simp [collapseWs, hd, he]] at hc
        rcases collapseWs_chars (e :: rest) c hc with h | h
        · left; exact List.mem_cons_of_mem _ h
        · right; exact h
      · rw [show collapseWs (d :: e :: rest) = ' ' :: collapseWs (e :: rest) from by
          simp [collapseWs, hd, he]] at hc
        rcases List.mem_cons.mp hc with h | h
        · right; exact h
        · rcases collapseWs_chars (e :: rest) c h with h2 | h2
          · left; exact List.mem_cons_of_mem _ h2
          · right; exact h2
    · rw [show collapseWs (d :: e :: rest) = d :: collapseWs (e :: rest) from by
        simp [collapseWs, hd]] at hc
      rcases List.mem_cons.mp hc with h | h
      · left; simp [h]
      · rcases collapseWs_chars (e :: rest) c h with h2 | h2
        · left; exact List.mem_cons_of_mem _ h2
        · right; exact h2

theorem splitWsAux_chars : ∀ (s cur : PyStr), ∀ t ∈ splitWsAux s cur, ∀ c ∈ t, c ∈ s ∨ c ∈ cur
  | [], cur => by
    intro t ht c hc
    by_cases h : cur = []
    · simp [splitWsAux, h] at ht
    · simp only [splitWsAux, if_neg h, List.mem_singleton] at ht
      subst ht
      right
      simpa using hc
  | d :: s, cur => by
    intro t ht c hc
    by_cases hd : pyIsSpace d
    · by_cases h : cur = []
      · rw [show splitWsAux (d :: s) cur = splitWsAux s [] from by
          simp [splitWsAux, hd, h]] at ht
        rcases splitWsAux_chars s [] t ht c hc with h2 | h2
        · left; exact List.mem_cons_of_mem _ h2
        · simp at h2
      · rw [show splitWsAux (d :: s) cur = cur.reverse :: splitWsAux s [] from by
          simp [splitWsAux, hd, h]] at ht
        rcases List.mem_cons.mp ht with h2 | h2
        · subst h2; right; simpa using hc
        · rcases splitWsAux_chars s [] t h2 c hc with h3 | h3
          · left; exact List.mem_cons_of_mem _ h3
          · simp at h3
    · rw [show splitWsAux (d :: s) cur = splitWsAux s (d :: cur) from by
        simp [splitWsAux, hd]] at ht
      rcases splitWsAux_chars s (d :: cur) t ht c hc with h2 | h2
      · left; exact List.mem_cons_of_mem _ h2
      · rcases List.mem_cons.mp h2 with h3 | h3
        · left; simp [h3]
        · right; exact h3

theorem splitWs_chars (s : PyStr) : ∀ t ∈ splitWs s, ∀ c ∈ t, c ∈ s := by
  intro t ht c hc
  rcases splitWsAux_chars s [] t ht c hc with h | h
  · exact h
  · simp at h

theorem joinToks_chars : ∀ (ts : List PyStr), ∀ c ∈ joinToks ts, (∃ t ∈ ts, c ∈ t) ∨ c = ' '
  | [] => by intro c hc; simp [joinToks] at hc
  | [t] => by
    intro c hc
    left
    exact ⟨t, by simp, hc⟩
  | t :: u :: ts => by
    intro c hc
    rw [show joinToks (t :: u :: ts) = t ++ ' ' :: joinToks (u :: ts) from rfl] at hc
    rcases List.mem_append.mp hc with h | h
    · left; exact ⟨t, by simp, h⟩
    · rcases List.mem_cons.mp h with h2 | h2
      · right; exact h2
      · rcases joinToks_chars (u :: ts) c h2 with ⟨x, hx, hcx⟩ | h3
        · left; exact ⟨x, List.mem_cons_of_mem _ hx, hcx⟩
        · right; exact h3

theorem hyphenScan_chars : ∀ (l : List PyStr), ∀ t ∈ hyphenScan l, ∀ c ∈ t,
    (∃ u ∈ l, c ∈ u) ∨ c = '-'
  | [] => by intro t ht; simp [hyphenScan] at ht
  | [w] => by
    intro t ht c hc
    simp only [hyphenScan, List.mem_singleton] at ht
    subst ht
    left
    exact ⟨t, by simp, hc⟩
  | w :: next :: rest => by
    intro t ht c hc
    by_cases hw : w ∈ HYPHEN_PREFIXES
    · rw [show hyphenScan (w :: next :: rest) = (w ++ '-' :: next) :: hyphenScan rest from by
        simp [hyphenScan, hw]] at ht
      rcases List.mem_cons.mp ht with h | h
      · subst h
        rcases List.mem_append.mp hc with h2 | h2
        · left; exact ⟨w, by simp, h2⟩
        · rcases List.mem_cons.mp h2 with h3 | h3
          · right; exact h3
          · left; exact ⟨next, by simp, h3⟩
      · rcases hyphenScan_chars rest t h c hc with ⟨x, hx, hcx⟩ | h3
        · left; exact ⟨x, by simp [hx], hcx⟩
        · right; exact h3
    · rw [show hyphenScan (w :: next :: rest) = w :: hyphenScan (next :: rest) from by
        simp [hyphenScan, hw]] at ht
      rcases List.mem_cons.mp ht with h | h
      · subst h; left; exact ⟨t, by simp, hc⟩
      · rcases hyphenScan_chars (next :: rest) t h c hc with ⟨x, hx, hcx⟩ | h3
        · left
          refine ⟨x, ?_, hcx⟩
          rcases List.mem_cons.mp hx with h4 | h4
          · simp [h4]
          · exact List.mem_cons_of_mem _ (List.mem_cons_of_mem _ h4)
        · right; exact h3

theorem hyphenScan_ne_nil : ∀ (l : List PyStr), l ≠ [] → hyphenScan l ≠ []
  | [], h => absurd rfl h
  | [w], _ => by simp [hyphenScan]
  | w :: next :: rest, _ => by
    by_cases hw : w ∈ HYPHEN_PREFIXES <;> simp [hyphenScan, hw]

theorem hyphenScan_good : ∀ (l : List PyStr), (∀ t ∈ l, goodTok t) →
    ∀ t ∈ hyphenScan l, goodTok t
  | [], _ => by intro t ht; simp [hyphenScan] at ht
  | [w], h => by
    intro t ht
    simp only [hyphenScan, List.mem_singleton] at ht
    subst ht
    exact h t (by simp)
  | w :: next :: rest, h => by
    intro t ht
    by_cases hw : w ∈ HYPHEN_PREFIXES
    · rw [show hyphenScan (w :: next :: rest) = (w ++ '-' :: next) :: hyphenScan rest from by
        simp [hyphenScan, hw]] at ht
      rcases List.mem_cons.mp ht with h1 | h1
      · subst h1
        have hwg := h w (by simp)
        have hng := h next (by simp)
        refine ⟨by simp, ?_⟩
        intro c hc
        rcases List.mem_append.mp hc with h2 | h2
        · exact hwg.2 c h2
        · rcases List.mem_cons.mp h2 with h3 | h3
          · subst h3; decide
          · exact hng.2 c h3
      · exact hyphenScan_good rest (fun x hx => h x (by simp [hx])) t h1
    · rw [show hyphenScan (w :: next :: rest) = w :: hyphenScan (next :: rest) from by
        simp [hyphenScan, hw]] at ht
      rcases List.mem_cons.mp ht with h1 | h1
      · subst h1; exact h t (by simp)
      · exact hyphenScan_good (next :: rest) (fun x hx => h x (List.mem_cons_of_mem _ hx)) t h1

theorem hyphen_not_in_prefixes : ∀ p ∈ HYPHEN_PREFIXES, ('-') ∉ p := by decide

theorem dropLast_cons_of_ne_nil (x : PyStr) (l : List PyStr) (h : l ≠ []) :
    (x :: l).dropLast = x :: l.dropLast := by
  cases l with
  | nil => exact absurd rfl h
  | cons y l => rfl

theorem hyphenScan_out : ∀ (l : List PyStr), ∀ t ∈ (hyphenScan l).dropLast,
    t ∉ HYPHEN_PREFIXES
  | [] => by intro t ht; simp [hyphenScan] at ht
  | [w] => by intro t ht; simp [hyphenScan] at ht
  | w :: next :: rest => by
    intro t ht
    by_cases hw : w ∈ HYPHEN_PREFIXES
    · rw [show hyphenScan (w :: next :: rest) = (w ++ '-' :: next) :: hyphenScan rest from by
        simp [hyphenScan, hw]] at ht
      rcases hsr : hyphenScan rest with _ | ⟨x, xs⟩
      · rw [hsr] at ht; simp at ht
      · rw [hsr, dropLast_cons_of_ne_nil _ _ (by simp)] at ht
        rcases List.mem_cons.mp ht with h1 | h1
        · subst h1
          intro hmem
          exact absurd (by simp : ('-') ∈ w ++ '-' :: next) (hyphen_not_in_prefixes _ hmem)
        · exact hyphenScan_out rest t (by rw [hsr]; exact h1)
    · rw [show hyphenScan (w :: next :: rest) = w :: hyphenScan (next :: rest) from by
        simp [hyphenScan, hw]] at ht
      rw [dropLast_cons_of_ne_nil _ _ (hyphenScan_ne_nil (next :: rest) (by simp))] at ht
      rcases List.mem_cons.mp ht with h1 | h1
      · subst h1; exact hw
      · exact hyphenScan_out (next :: rest) t h1

theorem hyphenScan_fix : ∀ (l : List PyStr), (∀ t ∈ l.dropLast, t ∉ HYPHEN_PREFIXES) →
    hyphenScan l = l
  | [], _ => rfl
  | [w], _ => rfl
  | w :: next :: rest, h => by
    have hw : w ∉ HYPHEN_PREFIXES := by
      refine h w ?_
      rw [dropLast_cons_of_ne_nil w (next :: rest) (by simp)]
      simp
    rw [show hyphenScan (w :: next :: rest) = w :: hyphenScan (next :: rest) from by
      simp [hyphenScan, hw]]
    rw [hyphenScan_fix (next :: rest) (fun t ht => h t (by
      rw [dropLast_cons_of_ne_nil w (next :: rest) (by simp)]
      exact List.mem_cons_of_mem _ ht))]

theorem dropLast_of_short (l : List PyStr) (h : l.length < 2) : l.dropLast = [] := by
  cases l with
  | nil => rfl
  | cons x l =>
    cases l with
    | nil => rfl
    | cons y l =>
      exfalso
      simp only [List.length_cons] at h
      omega

theorem pyLower_fixed (u : PyStr) (h : ∀ c ∈ u, pyLowerChar c = c) : pyLower u = u := by
  induction u with
  | nil => rfl
  | cons c u ih =>
    show pyLowerChar c :: pyLower u = c :: u
    rw [h c (by simp), ih (fun x hx => h x (List.mem_cons_of_mem _ hx))]

theorem normU_cons (c : Char) (u : PyStr) :
    _normalize_unicode (c :: u) = nfkdStripChar (replaceSmartChar c) ++ _normalize_unicode u := by
  simp [_normalize_unicode]

theorem normU_fixed (u : PyStr) (h : ∀ c ∈ u, replaceSmartChar c = c ∧ nfkdStripChar c = [c]) :
    _normalize_unicode u = u := by
  induction u with
  | nil => rfl
  | cons c u ih =>
    rw [normU_cons, (h c (by simp)).1, (h c (by simp)).2,
      ih (fun x hx => h x (List.mem_cons_of_mem _ hx))]
    simp

theorem startsNonWs_pyLower (u : PyStr) (h : startsNonWs u = true) :
    startsNonWs (pyLower u) = true := by
  cases u with
  | nil => rfl
  | cons c u =>
    show startsNonWs (pyLowerChar c :: pyLower u) = true
    simp only [startsNonWs, Bool.not_eq_true'] at h ⊢
    exact pyLowerChar_not_ws c h

theorem endsNonWs_pyLower (u : PyStr) (h : endsNonWs u = true) :
    endsNonWs (pyLower u) = true := by
  rw [endsNonWs_eq_startsNonWs_reverse] at h ⊢
  rw [show (pyLower u).reverse = pyLower u.reverse from by simp [pyLower]]
  exact startsNonWs_pyLower _ h

theorem lookupAL_mem : ∀ (m : List (PyStr × PyStr)) (k v : PyStr),
    lookupAL m k = some v → (k, v) ∈ m := by
  intro m
  induction m with
  | nil => intro k v h; simp [lookupAL] at h
  | cons p rest ih =>
    intro k v h
    obtain ⟨a, b⟩ := p
    by_cases hak : a = k
    · subst hak
      have h2 : some b = some v := by rw [← h]; simp [lookupAL]
      have h3 := Option.some.inj h2
      subst h3
      simp
    · rw [show lookupAL ((a, b) :: rest) k = lookupAL rest k from by simp [lookupAL, hak]] at h
      exact List.mem_cons_of_mem _ (ih k v h)

set_option maxRecDepth 4000 in
theorem alias_values_fixed : ∀ p ∈ ALIAS_MAP, normalize_genre p.2 = p.2 := by decide

theorem normalize_alias_value (k v : PyStr) (h : lookupAL ALIAS_MAP k = some v) :
    normalize_genre v = v :=
  alias_values_fixed (k, v) (lookupAL_mem ALIAS_MAP k v h)

theorem mem_joinToks_of_mem : ∀ (ts : List PyStr) (u : PyStr) (c : Char),
    u ∈ ts → c ∈ u → c ∈ joinToks ts
  | [], u, c, hu, _ => by simp at hu
  | [t], u, c, hu, hc => by
    simp only [List.mem_singleton] at hu
    subst hu
    exact hc
  | t :: x :: ts, u, c, hu, hc => by
    rw [show joinToks (t :: x :: ts) = t ++ ' ' :: joinToks (x :: ts) from rfl]
    rcases List.mem_cons.mp hu with h | h
    · subst h
      exact List.mem_append_left _ hc
    · exact List.mem_append_right _
        (List.mem_cons_of_mem _ (mem_joinToks_of_mem (x :: ts) u c h hc))

theorem canonText_joinToks (ts : List PyStr) (hg : ∀ t ∈ ts, goodTok t)
    (hstable : ∀ c ∈ joinToks ts, stableChar c) :
    canonText (joinToks ts) = joinToks ts := by
  have hs := startsNonWs_joinToks ts hg
  have he := endsNonWs_joinToks ts hg
  have hstrip : pyStrip (joinToks ts) = joinToks ts := pyStrip_fix _ hs he
  have hlow : pyLower (joinToks ts) = joinToks ts :=
    pyLower_fixed _ (fun c hc => (hstable c hc).1)
  have hnu : _normalize_unicode (joinToks ts) = joinToks ts :=
    normU_fixed _ (fun c hc => ⟨(hstable c hc).2.1, (hstable c hc).2.2⟩)
  have hcol : collapseWs (joinToks ts) = joinToks ts := by
    rw [collapse_join _ he, hs, splitWs_joinToks ts hg]
    simp
  show collapseWs (_normalize_unicode (pyLower (pyStrip (joinToks ts)))) = joinToks ts
  rw [hstrip, hlow, hnu, hcol]

theorem apply_hyphen_joinToks (ts : List PyStr) (hg : ∀ t ∈ ts, goodTok t) :
    ∃ us : List PyStr,
      _apply_hyphen_rules (joinToks ts) = joinToks us ∧
      (∀ t ∈ us, goodTok t) ∧
      (∀ x ∈ us.dropLast, x ∉ HYPHEN_PREFIXES) ∧
      (∀ c ∈ joinToks us, c ∈ joinToks ts ∨ c = '-' ∨ c = ' ') := by
  by_cases hlen : (ts : List PyStr).length < 2
  · refine ⟨ts, ?_, hg, ?_, ?_⟩
    · show (if (splitWs (joinToks ts)).length < 2 then joinToks ts
        else joinToks (hyphenScan (splitWs (joinToks ts)))) = joinToks ts
      rw [splitWs_joinToks ts hg, if_pos hlen]
    · intro x hx
      rw [dropLast_of_short ts hlen] at hx
      simp at hx
    · intro c hc
      left
      exact hc
  · refine ⟨hyphenScan ts, ?_, hyphenScan_good ts hg, hyphenScan_out ts, ?_⟩
    · show (if (splitWs (joinToks ts)).length < 2 then joinToks ts
        else joinToks (hyphenScan (splitWs (joinToks ts)))) = joinToks (hyphenScan ts)
      rw [splitWs_joinToks ts hg, if_neg hlen]
    · intro c hc
      rcases joinToks_chars _ c hc with ⟨t, ht, hct⟩ | rfl
      · rcases hyphenScan_chars ts t ht c hct with ⟨u, hu, hcu⟩ | h
        · left; exact mem_joinToks_of_mem ts u c hu hcu
        · right; left; exact h
      · right; right; rfl

theorem normalize_genre_joinToks_fix (ts : List PyStr) (hg : ∀ t ∈ ts, goodTok t)
    (hstable : ∀ c ∈ joinToks ts, stableChar c)
    (hkey : lookupAL ALIAS_MAP (joinToks ts) = none)
    (hout : ∀ x ∈ ts.dropLast, x ∉ HYPHEN_PREFIXES) :
    normalize_genre (joinToks ts) = joinToks ts := by
  by_cases h0 : joinToks ts = []
  · rw [h0]
    decide
  · have hstrip : pyStrip (joinToks ts) = joinToks ts :=
      pyStrip_fix _ (startsNonWs_joinToks ts hg) (endsNonWs_joinToks ts hg)
    have hcanon := canonText_joinToks ts hg hstable
    have hsplit : splitWs (joinToks ts) = ts := splitWs_joinToks ts hg
    have hhyph : _apply_hyphen_rules (joinToks ts) = joinToks ts := by
      show (if (splitWs (joinToks ts)).length < 2 then joinToks ts
        else joinToks (hyphenScan (splitWs (joinToks ts)))) = joinToks ts
      rw [hsplit]
      by_cases hlen : (ts : List PyStr).length < 2
      · rw [if_pos hlen]
      · rw [if_neg hlen, hyphenScan_fix ts hout]
    have hns : ¬(pyStrip (joinToks ts) = []) := by
      rw [hstrip]
      exact h0
    unfold normalize_genre
    rw [if_neg hns, hcanon]
    simp only [hkey, hhyph]

theorem normalize_genre_empty : normalize_genre [] = [] := by decide

/-- C1 (as stated) is false: normalizing the two character string consisting
of the acute accent U+00B4 and the letter a yields a string with a leading
space (the unicode fold turns the accent into a space that the collapse
keeps), and a second normalization strips that space. -/
theorem c1_idempotence_counterexample :
    normalize_genre (normalize_genre ['\u00b4', 'a']) ≠ normalize_genre ['\u00b4', 'a'] ∧
    normalize_genre ['\u00b4', 'a'] = [' ', 'a'] ∧
    normalize_genre (normalize_genre ['\u00b4', 'a']) = ['a'] := by decide

/-- C1 amended: the full normalization pipeline is idempotent on every ASCII
string, including alias-table values and hyphenated pass-through outputs. -/
theorem c1_normalize_genre_idempotent_on_ascii (s : PyStr)
    (hascii : ∀ c ∈ s, c.toNat < 128) :
    normalize_genre (normalize_genre s) = normalize_genre s := by
  by_cases hstrip : pyStrip s = []
  · have h1 : normalize_genre s = [] := by
      unfold normalize_genre
      rw [if_pos hstrip]
    rw [h1]
    exact congrArg normalize_genre normalize_genre_empty
  · have hvchars : ∀ c ∈ pyLower (pyStrip s), stableChar c ∧ c.toNat < 128 := by
      intro c hc
      rcases List.mem_map.mp hc with ⟨d, hd, rfl⟩
      exact stableChar_of_ascii_lowered d (hascii d (pyStrip_chars s d hd))
    have hsv : startsNonWs (pyLower (pyStrip s)) = true :=
      startsNonWs_pyLower _ (pyStrip_startsNonWs s)
    have hev : endsNonWs (pyLower (pyStrip s)) = true :=
      endsNonWs_pyLower _ (pyStrip_endsNonWs s)
    have hTg : ∀ t ∈ splitWs (pyLower (pyStrip s)), goodTok t := splitWs_good _
    have hceq : canonText s = joinToks (splitWs (pyLower (pyStrip s))) := by
      show collapseWs (_normalize_unicode (pyLower (pyStrip s))) = _
      rw [normU_fixed _ (fun c hc => ⟨(hvchars c hc).1.2.1, (hvchars c hc).1.2.2⟩)]
      rw [collapse_join _ hev, hsv]
      simp
    have hJchars : ∀ c ∈ joinToks (splitWs (pyLower (pyStrip s))), stableChar c := by
      intro c hc
      rcases joinToks_chars _ c hc with ⟨t, ht, hct⟩ | rfl
      · exact (hvchars c (splitWs_chars _ t ht c hct)).1
      · exact stableChar_space
    rcases hl1 : lookupAL ALIAS_MAP (joinToks (splitWs (pyLower (pyStrip s)))) with _ | val
    · obtain ⟨us, hhyph, hug, huout, huchars⟩ :=
        apply_hyphen_joinToks (splitWs (pyLower (pyStrip s))) hTg
      have hUstable : ∀ c ∈ joinToks us, stableChar c := by
        intro c hc
        rcases huchars c hc with h | h | h
        · exact hJchars c h
        · exact h ▸ stableChar_hyphen
        · exact h ▸ stableChar_space
      rcases hl2 : lookupAL ALIAS_MAP (_apply_hyphen_rules
          (joinToks (splitWs (pyLower (pyStrip s))))) with _ | val
      · have hl2a : lookupAL ALIAS_MAP (joinToks us) = none := by
          rw [← hhyph]
          exact hl2
        have hns : normalize_genre s = joinToks us := by
          unfold normalize_genre
          rw [if_neg hstrip, hceq]
          simp only [hl1, hhyph, hl2a]
        rw [hns]
        refine normalize_genre_joinToks_fix us hug hUstable ?_ huout
        rw [← hhyph]
        exact hl2
      · have hns : normalize_genre s = val := by
          unfold normalize_genre
          rw [if_neg hstrip, hceq]
          simp only [hl1, hl2]
        rw [hns]
        exact normalize_alias_value _ val hl2
    · have hns : normalize_genre s = val := by
        unfold normalize_genre
        rw [if_neg hstrip, hceq]
        simp only [hl1]
      rw [hns]
      exact normalize_alias_value _ val hl1

theorem c1_idempotent_ascii_witness :
    (∀ c ∈ ("Post  Punk rock".data), c.toNat < 128) ∧
    normalize_genre (normalize_genre ("Post  Punk rock".data)) =
      normalize_genre ("Post  Punk rock".data) :=
  ⟨by decide, c1_normalize_genre_idempotent_on_ascii ("Post  Punk rock".data) (by decide)⟩

set_option maxRecDepth 4000 in
theorem alias_values_ne_nil : ∀ p ∈ ALIAS_MAP, p.2 ≠ [] := by decide

theorem apply_hyphen_ne_nil (u : PyStr) (hu : u ≠ []) : _apply_hyphen_rules u ≠ [] := by
  show (if (splitWs u).length < 2 then u else joinToks (hyphenScan (splitWs u))) ≠ []
  by_cases hlen : (splitWs u).length < 2
  · rw [if_pos hlen]
    exact hu
  · rw [if_neg hlen]
    rcases hsc : hyphenScan (splitWs u) with _ | ⟨x, xs⟩
    · refine absurd hsc (hyphenScan_ne_nil _ ?_)
      intro h
      rw [h] at hlen
      exact hlen (by simp)
    · have hxg : goodTok x :=
        hyphenScan_good (splitWs u) (splitWs_good u) x (by rw [hsc]; simp)
      exact joinToks_ne_nil x xs hxg.1

theorem canonText_of_strip_nil (raw : PyStr) (h : pyStrip raw = []) : canonText raw = [] := by
  show collapseWs (_normalize_unicode (pyLower (pyStrip raw))) = []
  rw [h]
  rfl

/-- C2 (as stated) is false: the string consisting of the single combining
acute U+0301 is neither empty nor whitespace-only, yet its canonical form is
the empty string, because the unicode fold removes combining marks. -/
theorem c2_empty_result_counterexample :
    normalize_genre ['\u0301'] = [] ∧ (['\u0301'] : PyStr) ≠ [] ∧
    pyIsSpace '\u0301' = false ∧ pyStrip ['\u0301'] ≠ [] := by decide

/-- C2 amended: normalize_genre is total and its result is the empty string
exactly when the stripped input is empty or the case fold, unicode fold and
whitespace collapse erase every character of the input. -/
theorem c2_normalize_genre_total_empty_iff (raw : PyStr) :
    normalize_genre raw = [] ↔ (pyStrip raw = [] ∨ canonText raw = []) := by
  constructor
  · intro h
    by_cases hs : pyStrip raw = []
    · exact Or.inl hs
    · rcases hl1 : lookupAL ALIAS_MAP (canonText raw) with _ | v
      · rcases hl2 : lookupAL ALIAS_MAP (_apply_hyphen_rules (canonText raw)) with _ | v
        · have hns : normalize_genre raw = _apply_hyphen_rules (canonText raw) := by
            unfold normalize_genre
            rw [if_neg hs]
            simp only [hl1, hl2]
          rw [hns] at h
          by_cases hc0 : canonText raw = []
          · exact Or.inr hc0
          · exact absurd h (apply_hyphen_ne_nil _ hc0)
        · have hns : normalize_genre raw = v := by
            unfold normalize_genre
            rw [if_neg hs]
            simp only [hl1, hl2]
          rw [hns] at h
          exact absurd h (alias_values_ne_nil (_, v) (lookupAL_mem ALIAS_MAP _ v hl2))
      · have hns : normalize_genre raw = v := by
          unfold normalize_genre
          rw [if_neg hs]
          simp only [hl1]
        rw [hns] at h
        exact absurd h (alias_values_ne_nil (_, v) (lookupAL_mem ALIAS_MAP _ v hl1))
  · intro h
    rcases h with h | h
    · unfold normalize_genre
      rw [if_pos h]
    · by_cases hs : pyStrip raw = []
      · unfold normalize_genre
        rw [if_pos hs]
      · have h1 : lookupAL ALIAS_MAP ([] : PyStr) = none := by decide
        have h2 : _apply_hyphen_rules ([] : PyStr) = [] := by decide
        unfold normalize_genre
        rw [if_neg hs, h]
        simp only [h1, h2]

/-- C4: whenever the cleaned text (strip, lower, unicode fold, whitespace
collapse) is a key of the alias table, normalize_genre returns that key's
value directly, before any hyphenation. -/
theorem c4_alias_pass1_preempts (raw v : PyStr)
    (h : lookupAL ALIAS_MAP (canonText raw) = some v) :
    normalize_genre raw = v := by
  have hs : ¬(pyStrip raw = []) := by
    intro h0
    rw [canonText_of_strip_nil raw h0,
      show lookupAL ALIAS_MAP ([] : PyStr) = none from by decide] at h
    exact Option.noConfusion h
  unfold normalize_genre
  rw [if_neg hs]
  simp only [h]

theorem c4_witness :
    lookupAL ALIAS_MAP (canonText ("rock n roll".data)) = some ("rock and roll".data) ∧
    normalize_genre ("rock n roll".data) = "rock and roll".data :=
  ⟨by decide,
    c4_alias_pass1_preempts ("rock n roll".data) ("rock and roll".data) (by decide)⟩

/-- C5 (as stated) is false: the claim checks the lowercase form of the
current token against the hyphen prefix set, but the code checks the token
itself.  For the input Post punk the lowercase form of the first token is in
the set and a next token exists, yet the scan emits the tokens unchanged. -/
theorem c5_lowercase_scan_counterexample :
    pyLower ("Post".data) ∈ HYPHEN_PREFIXES ∧
    ("Post".data : PyStr) ∉ HYPHEN_PREFIXES ∧
    (splitWs ("Post punk".data)).length = 2 ∧
    _apply_hyphen_rules ("Post punk".data) = "Post punk".data := by decide

/-- C5 amended: the hyphenation engine returns its input unchanged on fewer
than two tokens; otherwise it performs the greedy non-overlapping
left-to-right scan, pairing a token that is itself in the hyphen-prefix set
(the pipeline passes already-lowercased text) with the following token, and
joins the result with single spaces. -/
theorem c5_hyphen_scan_amended :
    (∀ text : PyStr, (splitWs text).length < 2 → _apply_hyphen_rules text = text) ∧
    (∀ (p next : PyStr) (rest : List PyStr), p ∈ HYPHEN_PREFIXES →
      hyphenScan (p :: next :: rest) = (p ++ '-' :: next) :: hyphenScan rest) ∧
    (∀ (w next : PyStr) (rest : List PyStr), w ∉ HYPHEN_PREFIXES →
      hyphenScan (w :: next :: rest) = w :: hyphenScan (next :: rest)) ∧
    (∀ w : PyStr, hyphenScan [w] = [w]) ∧
    (∀ text : PyStr, 2 ≤ (splitWs text).length →
      _apply_hyphen_rules text = joinToks (hyphenScan (splitWs text))) := by
  refine ⟨?_, ?_, ?_, ?_, ?_⟩
  · intro text h
    show (if (splitWs text).length < 2 then text else joinToks (hyphenScan (splitWs text))) = text
    rw [if_pos h]
  · intro p next rest hp
    simp [hyphenScan, hp]
  · intro w next rest hw
    simp [hyphenScan, hw]
  · intro w
    rfl
  · intro text h
    show (if (splitWs text).length < 2 then text else joinToks (hyphenScan (splitWs text))) = _
    rw [if_neg (by omega)]

theorem c5_hyphen_scan_witness :
    ("post".data : PyStr) ∈ HYPHEN_PREFIXES ∧
    hyphenScan ["post".data, "punk".data, "folk".data, "rock".data] =
      ("post".data ++ '-' :: "punk".data) :: hyphenScan ["folk".data, "rock".data] :=
  ⟨by decide,
    c5_hyphen_scan_amended.2.1 ("post".data) ("punk".data) ["folk".data, "rock".data]
      (by decide)⟩

/-- C8: the literal normalization cases from the specification all hold. -/
theorem c8_literal_normalization_cases :
    normalize_genre ("rnb".data) = "r&b".data ∧
    normalize_genre ("Rock & Roll".data) = "rock and roll".data ∧
    normalize_genre ("Hip Hop".data) = "hip-hop".data ∧
    normalize_genre ("DnB".data) = "drum & bass".data ∧
    normalize_genre ("the 80s".data) = "80s".data ∧
    normalize_genre ("acid jazz".data) = "acid-jazz".data ∧
    normalize_genre ("neo soul".data) = "neo-soul".data ∧
    normalize_genre ("female vocalists".data) = "female vocalists".data := by decide

theorem mem_playlistResultSet (lk : Lookups) (a : PlaylistArgs) (x : Int) :
    x ∈ setOfResult (playlistResultSet lk a) ↔
      (anyRequested a = true ∧
        (titleRequested a = true → x ∈ titleSet lk a) ∧
        (genreRequested a = true → x ∈ genrePool lk a) ∧
        (bpmRequested a = true → x ∈ bpmSet lk a) ∧
        (artistRequested a = true → x ∈ artistPool lk a)) := by
  obtain ⟨title, genres, genre_groups, bpm_range, artists, similar_to, limit, shuffle⟩ := a
  rcases bpm_range with _ | ⟨lo, hi⟩ <;>
  cases h1 : optStrTruthy title <;>
  cases h2 : optListTruthy genres <;>
  cases h3 : optListTruthy genre_groups <;>
  cases h5 : optListTruthy artists <;>
  cases h6 : optStrTruthy similar_to <;>
    simp [playlistResultSet, andStep, orStep, poolFold, setOfResult, titleRequested,
      genreRequested, bpmRequested, artistRequested, anyRequested, titleSet, genrePool,
      artistPool, bpmSet, h1, h2, h3, h5, h6, List.mem_inter_iff, List.mem_union_iff,
      List.mem_dedup] <;>
    tauto

/-- C3 (as stated) is false at the edge case of a query whose only requested
dimension is the bpm range: the bpm-only query yields the bpm lookup set,
while the otherwise identical query without bpm yields the empty set, so
adding a bpm_range added an identifier. -/
theorem c3_bpm_only_counterexample :
    (7 : Int) ∈ setOfResult (playlistResultSet
      ⟨fun _ => [7], fun _ => [7], fun _ => [7], fun _ _ => [7], fun _ => [7], fun _ => [7]⟩
      ⟨none, none, none, some (0, 200), none, none, none, false⟩) ∧
    setOfResult (playlistResultSet
      ⟨fun _ => [7], fun _ => [7], fun _ => [7], fun _ _ => [7], fun _ => [7], fun _ => [7]⟩
      ⟨none, none, none, none, none, none, none, false⟩) = [] := by decide

/-- C3 amended: the accumulator of build_playlist_query before shuffle and
limit contains an identifier exactly when some dimension is requested and the
identifier lies in every requested dimension set, where the genre pool is the
union of the genres and genre-groups lookups and the artist pool is the union
of the artists and similar-to lookups; consequently, when the bpm-free query
has at least one requested dimension, adding a bpm_range never adds an
identifier. -/
theorem c3_result_set_intersection (lk : Lookups) (a : PlaylistArgs) (x : Int)
    (r : Int × Int) :
    (x ∈ setOfResult (playlistResultSet lk a) ↔
      (anyRequested a = true ∧
        (titleRequested a = true → x ∈ titleSet lk a) ∧
        (genreRequested a = true → x ∈ genrePool lk a) ∧
        (bpmRequested a = true → x ∈ bpmSet lk a) ∧
        (artistRequested a = true → x ∈ artistPool lk a))) ∧
    (anyRequested (withBpm a none) = true →
      x ∈ setOfResult (playlistResultSet lk (withBpm a (some r))) →
      x ∈ setOfResult (playlistResultSet lk (withBpm a none))) := by
  refine ⟨mem_playlistResultSet lk a x, ?_⟩
  intro hreq hx
  have h1 := (mem_playlistResultSet lk (withBpm a (some r)) x).mp hx
  refine (mem_playlistResultSet lk (withBpm a none) x).mpr
    ⟨hreq, h1.2.1, h1.2.2.1, ?_, h1.2.2.2.2⟩
  intro hb
  simp [withBpm, bpmRequested] at hb

theorem c3_characterization_witness :
    (5 : Int) ∈ setOfResult (playlistResultSet
      ⟨fun _ => [5], fun _ => [5], fun _ => [5], fun _ _ => [5], fun _ => [5], fun _ => [5]⟩
      ⟨none, some ["jazz".data], none, some (1, 2), none, none, none, false⟩) :=
  (c3_result_set_intersection
      ⟨fun _ => [5], fun _ => [5], fun _ => [5], fun _ _ => [5], fun _ => [5], fun _ => [5]⟩
      ⟨none, some ["jazz".data], none, some (1, 2), none, none, none, false⟩ 5 (0, 0)).1.mpr
    ⟨by decide, fun h => absurd h (by decide), fun _ => by decide, fun _ => by decide,
      fun h => absurd h (by decide)⟩

theorem playlistResultSet_none_of_not_requested (lk : Lookups) (a : PlaylistArgs)
    (h : anyRequested a = false) : playlistResultSet lk a = none := by
  obtain ⟨title, genres, genre_groups, bpm_range, artists, similar_to, limit, shuffle⟩ := a
  rcases bpm_range with _ | ⟨lo, hi⟩
  · simp only [anyRequested, titleRequested, genreRequested, bpmRequested, artistRequested,
      Bool.or_eq_false_iff] at h
    obtain ⟨⟨⟨h1, h2, h3⟩, _⟩, h5, h6⟩ := h
    simp [playlistResultSet, andStep, orStep, poolFold, h1, h2, h3, h5, h6]
  · simp [anyRequested, bpmRequested] at h

theorem build_of_resultSet_none (lk : Lookups) (sh : List Int → List Int) (a : PlaylistArgs)
    (h : playlistResultSet lk a = none) : build_playlist_query lk sh a = [] := by
  unfold build_playlist_query playlistPrelimit
  simp only [h]
  cases hl : a.limit with
  | none => rfl
  | some n =>
    by_cases hn : n = 0
    · simp [hn]
    · simp [hn, pySliceTo]

/-- C6: an unconstrained query returns the empty list no matter what the
lookup collaborator would return, and supplying an empty list for genres,
genre_groups or artists is equivalent to omitting the argument. -/
theorem c6_no_filters_returns_empty :
    (∀ (lk : Lookups) (sh : List Int → List Int) (a : PlaylistArgs),
      anyRequested a = false → build_playlist_query lk sh a = []) ∧
    (∀ (lk : Lookups) (sh : List Int → List Int) (a : PlaylistArgs),
      build_playlist_query lk sh { a with genres := some [] } =
        build_playlist_query lk sh { a with genres := none }) ∧
    (∀ (lk : Lookups) (sh : List Int → List Int) (a : PlaylistArgs),
      build_playlist_query lk sh { a with genre_groups := some [] } =
        build_playlist_query lk sh { a with genre_groups := none }) ∧
    (∀ (lk : Lookups) (sh : List Int → List Int) (a : PlaylistArgs),
      build_playlist_query lk sh { a with artists := some [] } =
        build_playlist_query lk sh { a with artists := none }) := by
  refine ⟨?_, ?_, ?_, ?_⟩
  · intro lk sh a h
    exact build_of_resultSet_none lk sh a (playlistResultSet_none_of_not_requested lk a h)
  · intro lk sh a
    have h : playlistResultSet lk { a with genres := some [] } =
        playlistResultSet lk { a with genres := none } := by
      simp [playlistResultSet, optListTruthy, bpmSet]
    unfold build_playlist_query playlistPrelimit
    rw [h]
  · intro lk sh a
    have h : playlistResultSet lk { a with genre_groups := some [] } =
        playlistResultSet lk { a with genre_groups := none } := by
      simp [playlistResultSet, optListTruthy, bpmSet]
    unfold build_playlist_query playlistPrelimit
    rw [h]
  · intro lk sh a
    have h : playlistResultSet lk { a with artists := some [] } =
        playlistResultSet lk { a with artists := none } := by
      simp [playlistResultSet, optListTruthy, bpmSet]
    unfold build_playlist_query playlistPrelimit
    rw [h]

theorem c6_no_filters_witness :
    build_playlist_query
      ⟨fun _ => [1, 2], fun _ => [3], fun _ => [4], fun _ _ => [5], fun _ => [6], fun _ => [7]⟩
      (fun l => l.reverse)
      ⟨some [], some [], some [], none, some [], some [], some 10, true⟩ = [] :=
  c6_no_filters_returns_empty.1
    ⟨fun _ => [1, 2], fun _ => [3], fun _ => [4], fun _ _ => [5], fun _ => [6], fun _ => [7]⟩
    (fun l => l.reverse)
    ⟨some [], some [], some [], none, some [], some [], some 10, true⟩
    (by decide)

/-- C7 (as stated) is false for a supplied limit of 0: the Python guard
if limit treats 0 as no limit at all, so the full result is returned. -/
theorem c7_limit_zero_counterexample :
    build_playlist_query
      ⟨fun _ => [5], fun _ => [5], fun _ => [5], fun _ _ => [5], fun _ => [5], fun _ => [5]⟩
      (fun l => l)
      ⟨none, some ["x".data], none, none, none, none, some 0, false⟩ = [5] ∧
    ¬((1 : Int) ≤ 0) := by decide

/-- C7 amended: whenever a positive limit is supplied the returned list is
the first limit elements of the (optionally shuffled) result list, so its
length is at most the limit. -/
theorem c7_positive_limit_take (lk : Lookups) (sh : List Int → List Int) (a : PlaylistArgs)
    (n : Int) (h1 : a.limit = some n) (h2 : 0 < n) :
    build_playlist_query lk sh a = (playlistPrelimit lk sh a).take n.toNat ∧
    ((build_playlist_query lk sh a).length : Int) ≤ n := by
  have hne : ¬(n = 0) := by omega
  have hb : build_playlist_query lk sh a = pySliceTo (playlistPrelimit lk sh a) n := by
    unfold build_playlist_query
    simp only [h1, if_neg hne]
  have ht : pySliceTo (playlistPrelimit lk sh a) n = (playlistPrelimit lk sh a).take n.toNat := by
    unfold pySliceTo
    rw [if_pos (le_of_lt h2)]
  refine ⟨by rw [hb, ht], ?_⟩
  rw [hb, ht]
  have hlen : ((playlistPrelimit lk sh a).take n.toNat).length ≤ n.toNat := by
    rw [List.length_take]
    omega
  omega

theorem c7_positive_limit_witness :
    ((build_playlist_query
      ⟨fun _ => [5, 6, 7], fun _ => [5, 6, 7], fun _ => [5, 6, 7], fun _ _ => [5, 6, 7],
        fun _ => [5, 6, 7], fun _ => [5, 6, 7]⟩
      (fun l => l)
      ⟨none, some ["x".data], none, none, none, none, some 2, false⟩).length : Int) ≤ 2 :=
  (c7_positive_limit_take
    ⟨fun _ => [5, 6, 7], fun _ => [5, 6, 7], fun _ => [5, 6, 7], fun _ _ => [5, 6, 7],
      fun _ => [5, 6, 7], fun _ => [5, 6, 7]⟩
    (fun l => l)
    ⟨none, some ["x".data], none, none, none, none, some 2, false⟩
    2 rfl (by decide)).2

/-- C10: the list returned by build_playlist_query never contains a duplicate
identifier, for every combination of arguments and lookup results, provided
the shuffle permutes its input as random.shuffle does. -/
theorem andStep_nodup (rs : Option (List Int)) (cond : Bool) (s : List Int)
    (hrs : ∀ r, rs = some r → r.Nodup) (hs : s.Nodup) :
    ∀ r, andStep rs cond s = some r → r.Nodup := by
  intro r h
  cases cond with
  | false => exact hrs r (by simpa [andStep] using h)
  | true =>
    cases hr0 : rs with
    | none =>
      rw [hr0] at h
      simp only [andStep, if_true, Option.some.injEq] at h
      subst h
      exact hs
    | some r0 =>
      rw [hr0] at h
      simp only [andStep, if_true, Option.some.injEq] at h
      subst h
      exact List.Nodup.inter _ (hrs r0 hr0)

theorem orStep_nodup (pool : Option (List Int)) (cond : Bool) (s : List Int)
    (hp : ∀ r, pool = some r → r.Nodup) (hs : s.Nodup) :
    ∀ r, orStep pool cond s = some r → r.Nodup := by
  intro r h
  cases cond with
  | false => exact hp r (by simpa [orStep] using h)
  | true =>
    cases hp0 : pool with
    | none =>
      rw [hp0] at h
      simp only [orStep, if_true, Option.some.injEq] at h
      subst h
      exact hs
    | some p0 =>
      rw [hp0] at h
      simp only [orStep, if_true, Option.some.injEq] at h
      subst h
      exact List.Nodup.union _ hs

theorem poolFold_nodup (rs pool : Option (List Int))
    (hrs : ∀ r, rs = some r → r.Nodup) (hp : ∀ r, pool = some r → r.Nodup) :
    ∀ r, poolFold rs pool = some r → r.Nodup := by
  intro r h
  cases hp0 : pool with
  | none =>
    rw [hp0] at h
    exact hrs r h
  | some p0 =>
    rw [hp0] at h
    simp only [poolFold, Option.some.injEq] at h
    cases hr0 : rs with
    | none =>
      rw [hr0] at h
      subst h
      exact hp p0 hp0
    | some r0 =>
      rw [hr0] at h
      subst h
      exact List.Nodup.inter _ (hrs r0 hr0)

theorem bpmSet_nodup (lk : Lookups) (a : PlaylistArgs) : (bpmSet lk a).Nodup := by
  unfold bpmSet
  rcases a.bpm_range with _ | ⟨lo, hi⟩
  · exact List.nodup_nil
  · exact List.nodup_dedup _

theorem none_nodup : ∀ r : List Int, (none : Option (List Int)) = some r → r.Nodup :=
  fun _ h => Option.noConfusion h

theorem playlistResultSet_nodup (lk : Lookups) (a : PlaylistArgs) :
    ∀ r, playlistResultSet lk a = some r → r.Nodup := by
  have h1 := andStep_nodup none (optStrTruthy a.title) ((lk.titleIds (a.title.getD [])).dedup)
    none_nodup (List.nodup_dedup _)
  have hg1 := orStep_nodup none (optListTruthy a.genres)
    ((lk.genresIds (a.genres.getD [])).dedup) none_nodup (List.nodup_dedup _)
  have hg2 := orStep_nodup _ (optListTruthy a.genre_groups)
    ((lk.groupsIds (a.genre_groups.getD [])).dedup) hg1 (List.nodup_dedup _)
  have h2 := poolFold_nodup _ _ h1 hg2
  have h3 := andStep_nodup _ a.bpm_range.isSome (bpmSet lk a) h2 (bpmSet_nodup lk a)
  have ha1 := orStep_nodup none (optListTruthy a.artists)
    ((lk.artistsIds (a.artists.getD [])).dedup) none_nodup (List.nodup_dedup _)
  have ha2 := orStep_nodup _ (optStrTruthy a.similar_to)
    ((lk.similarIds (a.similar_to.getD [])).dedup) ha1 (List.nodup_dedup _)
  exact poolFold_nodup _ _ h3 ha2

/-- C10: the list returned by build_playlist_query never contains a duplicate
identifier, for every combination of arguments and lookup results, provided
the shuffle permutes its input as random.shuffle does. -/
theorem c10_build_playlist_query_nodup (lk : Lookups) (sh : List Int → List Int)
    (a : PlaylistArgs) (hperm : ∀ l : List Int, List.Perm (sh l) l) :
    (build_playlist_query lk sh a).Nodup := by
  have hpre : (playlistPrelimit lk sh a).Nodup := by
    unfold playlistPrelimit
    rcases hr : playlistResultSet lk a with _ | rs
    · simp
    · have hrs : rs.Nodup := playlistResultSet_nodup lk a rs hr
      by_cases hs : a.shuffle
      · simp only [if_pos hs]
        exact ((hperm _).nodup_iff).mpr hrs
      · simp only [if_neg hs]
        exact hrs
  unfold build_playlist_query
  rcases hl : a.limit with _ | n
  · exact hpre
  · simp only []
    by_cases hn : n = 0
    · simp only [if_pos hn]
      exact hpre
    · simp only [if_neg hn]
      unfold pySliceTo
      split_ifs
      · exact List.Nodup.sublist (List.take_sublist _ _) hpre
      · exact List.Nodup.sublist (List.take_sublist _ _) hpre

theorem c10_nodup_witness :
    (build_playlist_query
      ⟨fun _ => [5, 5, 6], fun _ => [5, 5, 6], fun _ => [5, 5, 6], fun _ _ => [5, 5, 6],
        fun _ => [5, 5, 6], fun _ => [5, 5, 6]⟩
      (fun l => l.reverse)
      ⟨none, some ["x".data], none, none, none, none, none, true⟩).Nodup :=
  c10_build_playlist_query_nodup _ _ _ (fun l => List.reverse_perm l)

theorem pyStrLt_asymm : ∀ (a b : PyStr), pyStrLt a b = true → pyStrLt b a = false
  | [], [] => by simp [pyStrLt]
  | [], c :: cs => by intro _; simp [pyStrLt]
  | c :: cs, [] => by intro h; simp [pyStrLt] at h
  | a :: as, b :: bs => by
    intro h
    by_cases hab : a < b
    · have hba : ¬(b < a) := lt_asymm hab
      have hne : ¬(b = a) := ne_of_gt hab
      simp [pyStrLt, hba, hne]
    · by_cases heq : a = b
      · subst heq
        have h2 : pyStrLt as bs = true := by simpa [pyStrLt, hab] using h
        have h3 := pyStrLt_asymm as bs h2
        simp [pyStrLt, hab, h3]
      · simp [pyStrLt, hab, heq] at h

theorem pyStrLt_trans : ∀ (a b c : PyStr),
    pyStrLt a b = true → pyStrLt b c = true → pyStrLt a c = true
  | [], b, c => by
    intro h1 h2
    cases b with
    | nil => simp [pyStrLt] at h1
    | cons y bs =>
      cases c with
      | nil => simp [pyStrLt] at h2
      | cons z cs => simp [pyStrLt]
  | a :: as, b, c => by
    intro h1 h2
    cases b with
    | nil => simp [pyStrLt] at h1
    | cons y bs =>
      cases c with
      | nil => simp [pyStrLt] at h2
      | cons z cs =>
        by_cases hay : a < y
        · by_cases hyz : y < z
          · have h3 : a < z := lt_trans hay hyz
            simp [pyStrLt, h3]
          · by_cases hyz2 : y = z
            · subst hyz2
              simp [pyStrLt, hay]
            · simp [pyStrLt, hyz, hyz2] at h2
        · by_cases hay2 : a = y
          · subst hay2
            have h1a : pyStrLt as bs = true := by simpa [pyStrLt, hay] using h1
            by_cases haz : a < z
            · simp [pyStrLt, haz]
            · by_cases haz2 : a = z
              · subst haz2
                have h2a : pyStrLt bs cs = true := by simpa [pyStrLt, haz] using h2
                have h3 := pyStrLt_trans as bs cs h1a h2a
                simp [pyStrLt, haz, h3]
              · simp [pyStrLt, haz, haz2] at h2
          · simp [pyStrLt, hay, hay2] at h1

theorem pyStrLt_total_of_ne : ∀ (a b : PyStr), a ≠ b →
    pyStrLt a b = true ∨ pyStrLt b a = true
  | [], [] => fun h => absurd rfl h
  | [], c :: cs => fun _ => Or.inl (by simp [pyStrLt])
  | c :: cs, [] => fun _ => Or.inr (by simp [pyStrLt])
  | a :: as, b :: bs => fun h => by
    by_cases hab : a < b
    · exact Or.inl (by simp [pyStrLt, hab])
    · by_cases heq : a = b
      · subst heq
        have hne : as ≠ bs := fun he => h (by rw [he])
        rcases pyStrLt_total_of_ne as bs hne with h2 | h2
        · exact Or.inl (by simp [pyStrLt, hab, h2])
        · exact Or.inr (by simp [pyStrLt, hab, h2])
      · have hba : b < a := by
          rcases lt_trichotomy a b with h3 | h3 | h3
          · exact absurd h3 hab
          · exact absurd h3 heq
          · exact h3
        exact Or.inr (by simp [pyStrLt, hba])

theorem mem_insertByKey : ∀ (x : PyStr × List PyStr) (l : List (PyStr × List PyStr)) (z),
    z ∈ insertByKey x l → z = x ∨ z ∈ l
  | x, [], z => by
    intro h
    simp only [insertByKey, List.mem_singleton] at h
    exact Or.inl h
  | x, y :: rest, z => by
    intro h
    cases hlt : pyStrLt x.1 y.1 with
    | true =>
      simp only [insertByKey, hlt, if_true] at h
      rcases List.mem_cons.mp h with h1 | h1
      · exact Or.inl h1
      · exact Or.inr h1
    | false =>
      simp only [insertByKey, hlt, Bool.false_eq_true, if_false] at h
      rcases List.mem_cons.mp h with h1 | h1
      · exact Or.inr (by simp [h1])
      · rcases mem_insertByKey x rest z h1 with h2 | h2
        · exact Or.inl h2
        · exact Or.inr (List.mem_cons_of_mem _ h2)

theorem insertByKey_perm : ∀ (x : PyStr × List PyStr) (l : List (PyStr × List PyStr)),
    List.Perm (insertByKey x l) (x :: l)
  | x, [] => List.Perm.refl _
  | x, y :: rest => by
    cases hlt : pyStrLt x.1 y.1 with
    | true =>
      simp only [insertByKey, hlt, if_true]
      exact List.Perm.refl _
    | false =>
      simp only [insertByKey, hlt, Bool.false_eq_true, if_false]
      exact List.Perm.trans (List.Perm.cons y (insertByKey_perm x rest))
        (List.Perm.swap x y rest)

theorem sortByKey_perm : ∀ (l : List (PyStr × List PyStr)), List.Perm (sortByKey l) l
  | [] => List.Perm.refl _
  | x :: rest => by
    show List.Perm (insertByKey x (sortByKey rest)) (x :: rest)
    exact List.Perm.trans (insertByKey_perm _ _) (List.Perm.cons x (sortByKey_perm rest))

theorem insertByKey_pairwise (x : PyStr × List PyStr) (l : List (PyStr × List PyStr))
    (h : l.Pairwise (fun p q => pyStrLt q.1 p.1 = false)) :
    (insertByKey x l).Pairwise (fun p q => pyStrLt q.1 p.1 = false) := by
  induction l with
  | nil => simp [insertByKey]
  | cons y rest ih =>
    rcases List.pairwise_cons.mp h with ⟨hy, hrest⟩
    cases hlt : pyStrLt x.1 y.1 with
    | false =>
      simp only [insertByKey, hlt, Bool.false_eq_true, if_false]
      refine List.pairwise_cons.mpr ⟨?_, ih hrest⟩
      intro z hz
      rcases mem_insertByKey x rest z hz with h1 | h1
      · rw [h1]
        exact hlt
      · exact hy z h1
    | true =>
      simp only [insertByKey, hlt, if_true]
      refine List.pairwise_cons.mpr ⟨?_, h⟩
      intro z hz
      rcases List.mem_cons.mp hz with h1 | h1
      · rw [h1]
        exact pyStrLt_asymm _ _ hlt
      · by_contra hzx
        rw [Bool.not_eq_false] at hzx
        have h3 := pyStrLt_trans _ _ _ hzx hlt
        rw [hy z h1] at h3
        exact Bool.noConfusion h3

theorem sortByKey_pairwise : ∀ (l : List (PyStr × List PyStr)),
    (sortByKey l).Pairwise (fun p q => pyStrLt q.1 p.1 = false)
  | [] => List.Pairwise.nil
  | x :: rest => insertByKey_pairwise x (sortByKey rest) (sortByKey_pairwise rest)

theorem insertAppendRaw_keys : ∀ (acc : List (PyStr × List PyStr)) (k raw : PyStr),
    (insertAppendRaw acc k raw).map Prod.fst =
      if k ∈ acc.map Prod.fst then acc.map Prod.fst else acc.map Prod.fst ++ [k]
  | [], k, raw => by simp [insertAppendRaw]
  | (k0, vs) :: rest, k, raw => by
    by_cases hk : k0 = k
    · subst hk
      simp [insertAppendRaw]
    · have hk2 : ¬(k = k0) := fun he => hk he.symm
      simp only [insertAppendRaw, if_neg hk, List.map_cons]
      rw [insertAppendRaw_keys rest k raw]
      by_cases hmem : k ∈ rest.map Prod.fst
      · simp [hmem, hk2]
      · simp [hmem, hk2]

theorem groupFold_keys_nodup : ∀ (raws : List PyStr) (acc : List (PyStr × List PyStr)),
    (acc.map Prod.fst).Nodup → ((raws.foldl groupStep acc).map Prod.fst).Nodup
  | [], acc, h => h
  | raw :: raws, acc, h => by
    show ((raws.foldl groupStep (groupStep acc raw)).map Prod.fst).Nodup
    refine groupFold_keys_nodup raws (groupStep acc raw) ?_
    by_cases hn : normalize_genre raw = []
    · simpa [groupStep, hn] using h
    · rw [show groupStep acc raw = insertAppendRaw acc (normalize_genre raw) raw from by
        simp [groupStep, hn]]
      rw [insertAppendRaw_keys]
      by_cases hmem : normalize_genre raw ∈ acc.map Prod.fst
      · simpa [hmem] using h
      · rw [if_neg hmem]
        simp [List.nodup_append, h, hmem]

theorem groupByCanonical_keys_nodup (raws : List PyStr) :
    ((groupByCanonical raws).map Prod.fst).Nodup :=
  groupFold_keys_nodup raws [] (by simp)

theorem groupFold_keys_ne_nil : ∀ (raws : List PyStr) (acc : List (PyStr × List PyStr)),
    (∀ k ∈ acc.map Prod.fst, k ≠ ([] : PyStr)) →
    ∀ k ∈ (raws.foldl groupStep acc).map Prod.fst, k ≠ ([] : PyStr)
  | [], acc, h => h
  | raw :: raws, acc, h => by
    show ∀ k ∈ ((raws.foldl groupStep (groupStep acc raw)).map Prod.fst), k ≠ ([] : PyStr)
    refine groupFold_keys_ne_nil raws (groupStep acc raw) ?_
    by_cases hn : normalize_genre raw = []
    · simpa [groupStep, hn] using h
    · rw [show groupStep acc raw = insertAppendRaw acc (normalize_genre raw) raw from by
        simp [groupStep, hn]]
      rw [insertAppendRaw_keys]
      by_cases hmem : normalize_genre raw ∈ acc.map Prod.fst
      · simpa [hmem] using h
      · rw [if_neg hmem]
        intro k hk
        rcases List.mem_append.mp hk with h1 | h1
        · exact h k h1
        · rw [List.mem_singleton.mp h1]
          exact hn

theorem lookupCl_mem : ∀ (m : List (PyStr × List PyStr)) (k : PyStr) (v : List PyStr),
    lookupCl m k = some v → (k, v) ∈ m := by
  intro m
  induction m with
  | nil => intro k v h; simp [lookupCl] at h
  | cons p rest ih =>
    intro k v h
    obtain ⟨a, b⟩ := p
    by_cases hak : a = k
    · subst hak
      have h2 : some b = some v := by rw [← h]; simp [lookupCl]
      have h3 := Option.some.inj h2
      subst h3
      simp
    · rw [show lookupCl ((a, b) :: rest) k = lookupCl rest k from by simp [lookupCl, hak]] at h
      exact List.mem_cons_of_mem _ (ih k v h)

theorem lookupCl_none_iff : ∀ (l : List (PyStr × List PyStr)) (c : PyStr),
    lookupCl l c = none ↔ c ∉ l.map Prod.fst
  | [], c => by simp [lookupCl]
  | (k, vs) :: rest, c => by
    by_cases hk : k = c
    · subst hk
      simp [lookupCl]
    · have hk2 : ¬(c = k) := fun he => hk he.symm
      simp only [lookupCl, if_neg hk, List.map_cons, List.mem_cons]
      rw [lookupCl_none_iff rest c]
      constructor
      · intro h h2
        rcases h2 with h2 | h2
        · exact hk2 h2
        · exact h h2
      · intro h
        exact fun h2 => h (Or.inr h2)

theorem lookupCl_of_mem_nodup : ∀ (l : List (PyStr × List PyStr)) (c : PyStr) (vs : List PyStr),
    (l.map Prod.fst).Nodup → (c, vs) ∈ l → lookupCl l c = some vs
  | [], c, vs => by
    intro _ h
    simp at h
  | (k, ws) :: rest, c, vs => by
    intro hnd hmem
    rw [List.map_cons, List.nodup_cons] at hnd
    rcases List.mem_cons.mp hmem with h1 | h1
    · rw [Prod.mk.injEq] at h1
      obtain ⟨rfl, rfl⟩ := h1
      simp [lookupCl]
    · have hc : c ∈ rest.map Prod.fst := by
        have := List.mem_map_of_mem Prod.fst h1
        simpa using this
      have hk : ¬(k = c) := fun he => hnd.1 (he ▸ hc)
      simp only [lookupCl, if_neg hk]
      exact lookupCl_of_mem_nodup rest c vs hnd.2 h1

theorem lookupCl_perm (l l' : List (PyStr × List PyStr)) (hperm : List.Perm l l')
    (hnd : (l.map Prod.fst).Nodup) (c : PyStr) : lookupCl l c = lookupCl l' c := by
  cases hl : lookupCl l c with
  | none =>
    rw [lookupCl_none_iff] at hl
    symm
    rw [lookupCl_none_iff]
    intro hc
    exact hl (((hperm.map Prod.fst).mem_iff).mpr hc)
  | some vs =>
    have hmem := lookupCl_mem l c vs hl
    have hnd' : (l'.map Prod.fst).Nodup := ((hperm.map Prod.fst).nodup_iff).mp hnd
    exact (lookupCl_of_mem_nodup l' c vs hnd' (hperm.mem_iff.mp hmem)).symm

theorem lookupCl_filter (p : PyStr × List PyStr → Bool) :
    ∀ (l : List (PyStr × List PyStr)) (c : PyStr), (l.map Prod.fst).Nodup →
    lookupCl (l.filter p) c =
      (match lookupCl l c with
       | none => none
       | some vs => if p (c, vs) then some vs else none)
  | [], c => by
    intro _
    simp [lookupCl]
  | (k, ws) :: rest, c => by
    intro hnd
    rw [List.map_cons, List.nodup_cons] at hnd
    by_cases hk : k = c
    · subst hk
      by_cases hp : p (k, ws) = true
      · rw [List.filter_cons_of_pos hp]
        simp [lookupCl, hp]
      · rw [List.filter_cons_of_neg (by simp [hp])]
        have hnone : lookupCl (rest.filter p) k = none := by
          rw [lookupCl_none_iff]
          intro hc
          apply hnd.1
          rcases List.mem_map.mp hc with ⟨q, hq, hqe⟩
          have := List.mem_map_of_mem Prod.fst (List.mem_of_mem_filter hq)
          rw [hqe] at this
          exact this
        rw [hnone]
        simp [lookupCl, hp]
    · by_cases hp : p (k, ws) = true
      · rw [List.filter_cons_of_pos hp]
        simp only [lookupCl, if_neg hk]
        exact lookupCl_filter p rest c hnd.2
      · rw [List.filter_cons_of_neg (by simp [hp])]
        rw [lookupCl_filter p rest c hnd.2]
        simp only [lookupCl, if_neg hk]

theorem lookupCl_insertAppendRaw : ∀ (acc : List (PyStr × List PyStr)) (k raw c : PyStr),
    lookupCl (insertAppendRaw acc k raw) c =
      if k = c then some ((lookupCl acc c).getD [] ++ [raw]) else lookupCl acc c
  | [], k, raw, c => by
    by_cases hk : k = c <;> simp [insertAppendRaw, lookupCl, hk]
  | (k0, vs) :: rest, k, raw, c => by
    by_cases h0 : k0 = k
    · subst h0
      simp only [insertAppendRaw, if_pos rfl]
      by_cases hc : k0 = c
      · subst hc
        simp [lookupCl]
      · simp [lookupCl, hc]
    · simp only [insertAppendRaw, if_neg h0]
      by_cases hc : k0 = c
      · subst hc
        have hkc : ¬(k = k0) := fun he => h0 he.symm
        simp [lookupCl, hkc]
      · simp only [lookupCl, if_neg hc]
        rw [lookupCl_insertAppendRaw rest k raw c]

theorem combineOpt_nil (o : Option (List PyStr)) : combineOpt o [] = o := by
  cases o <;> simp [combineOpt]

theorem group_fold : ∀ (raws : List PyStr) (acc : List (PyStr × List PyStr)) (c : PyStr),
    c ≠ [] →
    lookupCl (raws.foldl groupStep acc) c =
      combineOpt (lookupCl acc c) (raws.filter (fun r => normalize_genre r = c))
  | [], acc, c, _ => by simp [combineOpt_nil]
  | raw :: raws, acc, c, hc => by
    show lookupCl (raws.foldl groupStep (groupStep acc raw)) c = _
    rw [group_fold raws (groupStep acc raw) c hc]
    by_cases hn : normalize_genre raw = []
    · have hstep : groupStep acc raw = acc := by simp [groupStep, hn]
      have hpred : ¬(normalize_genre raw = c) := by
        rw [hn]
        exact fun he => hc he.symm
      rw [hstep, List.filter_cons_of_neg (by simp [hpred])]
    · have hstep : groupStep acc raw = insertAppendRaw acc (normalize_genre raw) raw := by
        simp [groupStep, hn]
      rw [hstep, lookupCl_insertAppendRaw]
      by_cases hcc : normalize_genre raw = c
      · rw [if_pos hcc, List.filter_cons_of_pos (by simp [hcc])]
        cases hl : lookupCl acc c <;> simp [combineOpt]
      · rw [if_neg hcc, List.filter_cons_of_neg (by simp [hcc])]

/-- C9: find_duplicate_clusters groups every raw string by its canonical form
(duplicates counted individually, in input order), skips raws whose canonical
form is empty, keeps only canonical keys with two or more member raws, and
returns the clusters in strictly ascending canonical-key order; on the
literal example it returns exactly the rock cluster. -/
theorem c9_find_duplicate_clusters :
    (find_duplicate_clusters ["Rock".data, "rock".data, "ROCK".data, "Pop".data] =
      [("rock".data, ["Rock".data, "rock".data, "ROCK".data])]) ∧
    (∀ (raws : List PyStr) (c : PyStr),
      lookupCl (find_duplicate_clusters raws) c =
        (if c ≠ [] ∧ 2 ≤ (raws.filter (fun r => normalize_genre r = c)).length
         then some (raws.filter (fun r => normalize_genre r = c))
         else none)) ∧
    (∀ raws : List PyStr,
      (find_duplicate_clusters raws).Pairwise (fun p q => pyStrLt p.1 q.1 = true)) := by
  refine ⟨by decide, ?_, ?_⟩
  · intro raws c
    by_cases hc : c = []
    · subst hc
      rw [if_neg (by simp)]
      rw [lookupCl_none_iff]
      intro hmem
      unfold find_duplicate_clusters at hmem
      rcases List.mem_map.mp hmem with ⟨q, hq, hqe⟩
      have hq2 : q ∈ sortByKey (groupByCanonical raws) := List.mem_of_mem_filter hq
      have hq3 : q ∈ groupByCanonical raws := (sortByKey_perm _).mem_iff.mp hq2
      have hq4 : q.1 ∈ (groupByCanonical raws).map Prod.fst :=
        List.mem_map_of_mem Prod.fst hq3
      exact groupFold_keys_ne_nil raws [] (by simp) q.1 hq4 hqe
    · have hndG : ((groupByCanonical raws).map Prod.fst).Nodup :=
        groupByCanonical_keys_nodup raws
      have hndS : ((sortByKey (groupByCanonical raws)).map Prod.fst).Nodup :=
        (((sortByKey_perm (groupByCanonical raws)).map Prod.fst).nodup_iff).mpr hndG
      unfold find_duplicate_clusters
      rw [lookupCl_filter _ (sortByKey (groupByCanonical raws)) c hndS]
      rw [lookupCl_perm (sortByKey (groupByCanonical raws)) (groupByCanonical raws)
        (sortByKey_perm _) hndS c]
      rw [show lookupCl (groupByCanonical raws) c =
          combineOpt (lookupCl [] c) (raws.filter (fun r => normalize_genre r = c)) from
        group_fold raws [] c hc]
      by_cases hfil : raws.filter (fun r => normalize_genre r = c) = []
      · rw [hfil]
        simp [combineOpt, lookupCl]
      · rw [show combineOpt (lookupCl [] c) (raws.filter fun r => normalize_genre r = c) =
            some (raws.filter fun r => normalize_genre r = c) from by
          simp [combineOpt, lookupCl, hfil]]
        by_cases hlen : 2 ≤ (raws.filter fun r => normalize_genre r = c).length
        · simp [hlen, hc]
        · simp [hlen, hc]
  · intro raws
    have hndG := groupByCanonical_keys_nodup raws
    have hpw := sortByKey_pairwise (groupByCanonical raws)
    have hndS : ((sortByKey (groupByCanonical raws)).map Prod.fst).Nodup :=
      (((sortByKey_perm (groupByCanonical raws)).map Prod.fst).nodup_iff).mpr hndG
    have hne : (sortByKey (groupByCanonical raws)).Pairwise (fun p q => p.1 ≠ q.1) :=
      List.pairwise_map.mp hndS
    have hcomb := List.Pairwise.and hpw hne
    unfold find_duplicate_clusters
    refine List.Pairwise.imp ?_ (List.Pairwise.filter _ hcomb)
    intro p q hpq
    rcases pyStrLt_total_of_ne p.1 q.1 hpq.2 with h1 | h1
    · exact h1
    · rw [hpq.1] at h1
      exact Bool.noConfusion h1

end Spindle
